import Mathlib

/-!
Verification of the geogram-tdongle BLE advertisement-text protocol engine
(`src/ble/ble.cpp`, `src/ble/bluetoothmessage.cpp`).

Arduino `String` values are modelled as lists of byte values (`List Nat`);
all modelled strings are NUL-free, so `strcmp`-based comparison coincides
with lexicographic comparison of the byte lists.  Timestamps (`millis()`,
`uint32_t`) are modelled as `Nat` under the monotonicity assumption that
`now` never lags a stored timestamp, which makes the wrapping subtraction
`(uint32_t)(now - ts)` coincide with truncated `Nat` subtraction.
-/

namespace GeoBle

/-- An Arduino `String`, as the list of its byte values. -/
abbrev Str := List Nat

/-- The byte value of `':'`. -/
def colonByte : Nat := 58

/-- `String::indexOf(c)`: position of the first occurrence of byte `c`
(`none` models the C++ return value `-1`). -/
def idxOf? (s : Str) (c : Nat) : Option Nat :=
  match s with
  | [] => none
  | b :: rest => if b = c then some 0 else (idxOf? rest c).map (· + 1)

/-- `String::indexOf(c, fromIndex)`. -/
def idxOfFrom? (s : Str) (c : Nat) (start : Nat) : Option Nat :=
  (idxOf? (s.drop start) c).map (· + start)

/-- `String::substring(a, b)`: the bytes in positions `[a, b)`. -/
def substr (s : Str) (a b : Nat) : Str := (s.take b).drop a

/-- ASCII decimal digit test. -/
def isDigitB (b : Nat) : Bool := 48 ≤ b && b ≤ 57

/-- `isspace` over a byte, as used by `atol`. -/
def isSpaceB (b : Nat) : Bool := b = 32 || (9 ≤ b && b ≤ 13)

/-- Accumulating digit parse used by `atol`. -/
def atolDigits : Str → Nat → Nat
  | [], acc => acc
  | b :: rest, acc => if isDigitB b then atolDigits rest (acc * 10 + (b - 48)) else acc

/-- `String::toInt()` (which calls `atol`): skip leading whitespace, optional
sign, then a run of decimal digits; `0` when no digits are present. -/
def atol (s : Str) : Int :=
  match s.dropWhile isSpaceB with
  | 43 :: rest => Int.ofNat (atolDigits rest 0)
  | 45 :: rest => - Int.ofNat (atolDigits rest 0)
  | s1 => Int.ofNat (atolDigits s1 0)

/-- `strcmp`-style strict comparison (the `StringLess` comparator of the
parcel map): lexicographic on bytes, a strict prefix sorting first. -/
def strLtB : Str → Str → Bool
  | [], [] => false
  | [], _ :: _ => true
  | _ :: _, [] => false
  | a :: as, b :: bs => if a < b then true else if b < a then false else strLtB as bs

/-- `std::map<String, String, StringLess>`, as a key-sorted association list. -/
abbrev SMap := List (Str × Str)

/-- `map::find`. -/
def mapFind? (k : Str) : SMap → Option Str
  | [] => none
  | (k', v) :: rest => if k' = k then some v else mapFind? k rest

/-- `map::insert` (does not overwrite an existing key). -/
def mapInsert (k v : Str) : SMap → SMap
  | [] => [(k, v)]
  | (k', v') :: rest =>
    if strLtB k k' then (k, v) :: (k', v') :: rest
    else if strLtB k' k then (k', v') :: mapInsert k v rest
    else (k', v') :: rest

/-- Sum of the byte values of a string. -/
def sumBytes (s : Str) : Nat := s.foldl (· + ·) 0

/-- `BluetoothMessage::calculateChecksum`: 4 letters, each `'A' + sum % 26`
with `sum /= 26` between letters; `"AAAA"` for the empty string. -/
def calculateChecksum (data : Str) : Str :=
  if data = [] then [65, 65, 65, 65]
  else
    let sum := sumBytes data
    [65 + sum % 26, 65 + sum / 26 % 26, 65 + sum / 26 / 26 % 26, 65 + sum / 26 / 26 / 26 % 26]

/-- Max text bytes per data parcel (`TEXT_LENGTH_PER_PARCEL`). -/
def TEXT_LENGTH_PER_PARCEL : Nat := 20

/-- Most-significant-first decimal digits of `n` (`fuel ≥ n` suffices). -/
def natToDecAux (fuel n : Nat) : Str :=
  match fuel with
  | 0 => []
  | fuel + 1 => if n = 0 then [] else natToDecAux fuel (n / 10) ++ [n % 10 + 48]

/-- Decimal rendering of a natural number, as Arduino `String(int)`. -/
def natToDec (n : Nat) : Str := if n = 0 then [48] else natToDecAux n n

/-- The state of a `BluetoothMessage` object. -/
structure BluetoothMessage where
  messageCompleted : Bool
  id : Str
  idFromSender : Str
  idDestination : Str
  message : Str
  checksum : Str
  messageBox : SMap
  timeStamp : Nat
deriving Repr, DecidableEq

/-- The default constructor `BluetoothMessage()` (`timeStamp` from `millis()`). -/
def freshMessage (now : Nat) : BluetoothMessage :=
  ⟨false, [], [], [], [], [], [], now⟩

/-- `BluetoothMessage::isSingleCommand`: non-empty and without `':'`. -/
def isSingleCommand (s : Str) : Bool := s.length > 0 && (idxOf? s colonByte).isNone

/-- Payload of a stored parcel: the bytes after its own first `':'`
(nothing when it has no colon), as read back during reassembly. -/
def parcelPayload (full : Str) : Str :=
  match idxOf? full colonByte with
  | none => []
  | some a => full.drop (a + 1)

/-- The reassembly loop of `addMessageParcel`: concatenate, in stored (key-sorted)
order, the payloads of all parcels whose numeric index is ≥ 1. -/
def reassembleBox (box : SMap) : Str :=
  box.foldl (fun acc kv =>
    if 3 ≤ kv.1.length then
      if 1 ≤ atol (kv.1.drop 2) then acc ++ parcelPayload kv.2 else acc
    else acc) []

/-- `BluetoothMessage::addMessageParcel`. -/
def addMessageParcel (m : BluetoothMessage) (p : Str) : BluetoothMessage :=
  if m.messageCompleted then m
  else if isSingleCommand p then
    { m with message := p, messageBox := mapInsert [48, 48, 48] p m.messageBox,
             messageCompleted := true }
  else
    match idxOf? p colonByte with
    | none => m
    | some ci =>
      let parcelId := p.take ci
      if (mapFind? parcelId m.messageBox).isSome then m
      else
        let box := mapInsert parcelId p m.messageBox
        if 3 ≤ parcelId.length then
          let index : Int := atol (parcelId.drop 2)
          let id' := if m.id = [] then parcelId.take 2 else m.id
          if index < 0 then { m with messageBox := box, id := id' }
          else if index = 0 then
            match idxOfFrom? p colonByte (ci + 1) with
            | some p2 =>
              match idxOfFrom? p colonByte (p2 + 1) with
              | some p3 =>
                if 0 < ci then
                  { m with messageBox := box,
                           idFromSender := substr p (ci + 1) p2,
                           idDestination := substr p (p2 + 1) p3,
                           id := parcelId.take 2,
                           checksum := p.drop (p3 + 1) }
                else { m with messageBox := box, id := id' }
              | none => { m with messageBox := box, id := id' }
            | none => { m with messageBox := box, id := id' }
          else
            if box.length < 2 then { m with messageBox := box, id := id' }
            else if m.checksum = [] then { m with messageBox := box, id := id' }
            else
              let result := reassembleBox box
              if calculateChecksum result = m.checksum then
                { m with messageBox := box, id := id', message := result,
                         messageCompleted := true }
              else { m with messageBox := box, id := id' }
        else { m with messageBox := box }

/-- `getMessageParcels`: the stored parcel values in key order. -/
def getMessageParcels (m : BluetoothMessage) : List Str := m.messageBox.map (·.2)

/-- `BluetoothMessage::splitDataIntoParcels` (sender side): insert the index-0
header parcel and one parcel of at most `TEXT_LENGTH_PER_PARCEL` message bytes
per index `1 .. ⌈len/20⌉`.  `substring(start, min(start+20, len))` is written
as `drop start |>.take 20`, which clamps identically. -/
def splitDataIntoParcels (m : BluetoothMessage) : BluetoothMessage :=
  let dataLength := m.message.length
  let parcels := (dataLength + TEXT_LENGTH_PER_PARCEL - 1) / TEXT_LENGTH_PER_PARCEL
  let uidHeader := m.id ++ [48]
  let header := uidHeader ++ [colonByte] ++ m.idFromSender ++ [colonByte] ++
                m.idDestination ++ [colonByte] ++ m.checksum
  let box0 := mapInsert uidHeader header m.messageBox
  let box := (List.range parcels).foldl (fun b i =>
    let text := (m.message.drop (i * TEXT_LENGTH_PER_PARCEL)).take TEXT_LENGTH_PER_PARCEL
    let uid := m.id ++ natToDec (i + 1)
    mapInsert uid (uid ++ [colonByte] ++ text) b) box0
  { m with messageBox := box }

/-- The multi-parcel constructor `BluetoothMessage(from, dest, text, false)`;
the randomly generated 2-letter id is taken as the parameter `rid`. -/
def mkMultiMessage (rid sender dest text : Str) (now : Nat) : BluetoothMessage :=
  splitDataIntoParcels
    { messageCompleted := false, id := rid, idFromSender := sender,
      idDestination := dest, message := text,
      checksum := calculateChecksum text, messageBox := [], timeStamp := now }

/-- C8: for a non-empty byte string the checksum's `i`-th character (least
significant first) is `'A'` plus the `i`-th base-26 digit of the byte sum;
the empty string maps to the sentinel `"AAAA"`. -/
theorem checksum_base26_digits (s : Str) (hs : s ≠ []) :
    calculateChecksum s = (List.range 4).map (fun i => 65 + sumBytes s / 26 ^ i % 26) ∧
    calculateChecksum [] = [65, 65, 65, 65] := by
  refine ⟨?_, rfl⟩
  simp only [calculateChecksum, if_neg hs]
  have h4 : List.range 4 = [0, 1, 2, 3] := rfl
  simp only [h4, List.map_cons, List.map_nil, pow_zero, Nat.div_one, pow_one,
    Nat.div_div_eq_div_mul]
  norm_num

/-- Witness for `checksum_base26_digits` at the concrete string "Hi". -/
theorem checksum_base26_digits_witness :
    calculateChecksum [72, 105] =
      (List.range 4).map (fun i => 65 + sumBytes [72, 105] / 26 ^ i % 26) ∧
    calculateChecksum [] = [65, 65, 65, 65] :=
  checksum_base26_digits [72, 105] (by decide)

/-! ## Event queue (`g_evt_q`, `q_push`, `q_pop`) -/

/-- `BLE_EVT_QUEUE_DEPTH`. -/
def BLE_EVT_QUEUE_DEPTH : Nat := 32

/-- The event-queue globals: ring storage, head, tail, dropped-event counter.
Events are abstracted by the type `E` (`Nat` sequence numbers in the tests). -/
structure EvtQueue (E : Type) where
  buf : Nat → E
  head : Nat
  tail : Nat
  dropped : Nat

/-- `Q_NEXT`. -/
def qNext (i : Nat) : Nat := (i + 1) % BLE_EVT_QUEUE_DEPTH

/-- `q_full`. -/
def qFull {E} (q : EvtQueue E) : Bool := qNext q.head = q.tail

/-- `q_empty`. -/
def qEmpty {E} (q : EvtQueue E) : Bool := q.head = q.tail

/-- `q_push`: when full, evict the oldest entry and count a drop, then store. -/
def qPush {E} (q : EvtQueue E) (e : E) : EvtQueue E :=
  let q1 := if qFull q then { q with tail := qNext q.tail, dropped := q.dropped + 1 } else q
  { q1 with buf := fun j => if j = q1.head then e else q1.buf j, head := qNext q1.head }

/-- `q_pop`. -/
def qPop {E} (q : EvtQueue E) : Option E × EvtQueue E :=
  if qEmpty q then (none, q)
  else (some (q.buf q.tail), { q with tail := qNext q.tail })

/-- Popping until empty (bounded by a fuel, as by repeated `ble_tick` calls,
each of which pops up to its delivery budget in FIFO order). -/
def qPopN {E} : Nat → EvtQueue E → List E × EvtQueue E
  | 0, q => ([], q)
  | n + 1, q =>
    match qPop q with
    | (none, q') => ([], q')
    | (some e, q') =>
      let r := qPopN n q'
      (e :: r.1, r.2)

/-- A sequence of publishes. -/
def qPushList {E} (q : EvtQueue E) (l : List E) : EvtQueue E := l.foldl qPush q

/-- The initial (zero-initialised) queue state over `Nat` events. -/
def qInit : EvtQueue Nat := ⟨fun _ => 0, 0, 0, 0⟩

/-! ## Subscriber table (`g_subs`, `ble_subscribe`, `ble_unsubscribe`) -/

/-- One subscriber slot; the callback pointer is abstracted as a `Nat`
(`0` models a null `BleEventCb`). -/
structure Sub where
  cb : Nat
  ctx : Nat
  used : Bool
deriving Repr, DecidableEq

/-- The scan of `ble_subscribe` over the table, carrying the 0-based slot
position, returning the token and the updated table. -/
def subscribeLoop (cb ctx : Nat) : List Sub → Nat → Nat × List Sub
  | [], _ => (0, [])
  | s :: rest, i =>
    if !s.used then (i + 1, ⟨cb, ctx, true⟩ :: rest)
    else
      let r := subscribeLoop cb ctx rest (i + 1)
      (r.1, s :: r.2)

/-- `ble_subscribe`. -/
def ble_subscribe (cb ctx : Nat) (subs : List Sub) : Nat × List Sub :=
  if cb = 0 then (0, subs) else subscribeLoop cb ctx subs 0

/-- `ble_unsubscribe` (the table has `BLE_MAX_SUBSCRIBERS = 4` slots). -/
def ble_unsubscribe (token : Int) (subs : List Sub) : List Sub :=
  if token ≤ 0 then subs
  else
    let idx := (token - 1).toNat
    if idx < subs.length then subs.set idx ⟨0, 0, false⟩ else subs

/-! ## Burst transmitter (`adv_send_text_burst`, `ble_send_text`) -/

/-- `ADV_TEXT_MAX`. -/
def ADV_TEXT_MAX : Nat := 24

/-- The wire payload computed inside `adv_send_text_burst`: prefix `'>'` (62)
when absent, then truncate to `ADV_TEXT_MAX` bytes. -/
def advBurstPayload (text : Str) : Str :=
  let payload := if text = [] ∨ text.head? ≠ some 62 then 62 :: text else text
  payload.take ADV_TEXT_MAX

/-- `ble_send_text`: the returned byte count and the transmitted wire payload
(`none` when nothing is sent).  The function always builds `txt = '>' + data`
before handing it to the burst sender; `pauseDuringSend` only stops/resumes
scanning and does not affect the payload or the return value. -/
def ble_send_text (data : Str) : Nat × Option Str :=
  if data = [] then (0, none)
  else (data.length, some (advBurstPayload (62 :: data)))

/-! ## Queue lemmas -/

/-- The ring state after publishing events `0, 1, …, n-1` into the fresh queue. -/
def pushSeq (n : Nat) : EvtQueue Nat := qPushList qInit (List.range n)

theorem pushSeq_succ (n : Nat) : pushSeq (n + 1) = qPush (pushSeq n) n := by
  unfold pushSeq qPushList
  rw [List.range_succ, List.foldl_append, List.foldl_cons, List.foldl_nil]

theorem pushSeq_fill : ∀ n, n ≤ 31 →
    (pushSeq n).head = n ∧ (pushSeq n).tail = 0 ∧ (pushSeq n).dropped = 0 ∧
      ∀ j, j < n → (pushSeq n).buf j = j := by
  intro n
  induction n with
  | zero => intro _; exact ⟨rfl, rfl, rfl, by omega⟩
  | succ m ih =>
    intro hm
    obtain ⟨hh, ht, hd, hb⟩ := ih (by omega)
    rw [pushSeq_succ]
    have hfull : qFull (pushSeq m) = false := by
      simp only [qFull, qNext, BLE_EVT_QUEUE_DEPTH, hh, ht]
      simp only [decide_eq_false_iff_not]
      omega
    unfold qPush
    simp only [hfull, Bool.false_eq_true, if_false]
    refine ⟨?_, ht, hd, ?_⟩
    · simp only [qNext, BLE_EVT_QUEUE_DEPTH, hh]; omega
    · intro j hj
      simp only [hh]
      by_cases hje : j = m
      · simp [hje]
      · simp only [if_neg hje]; exact hb j (by omega)

theorem pushSeq_sat : ∀ n, 31 ≤ n →
    (pushSeq n).head = n % 32 ∧ (pushSeq n).tail = (n + 1) % 32 ∧
      (pushSeq n).dropped = n - 31 ∧
      ∀ j, j < 32 → j < n → (pushSeq n).buf j = j + 32 * ((n - 1 - j) / 32) := by
  intro n hn
  induction n, hn using Nat.le_induction with
  | base =>
    obtain ⟨hh, ht, hd, hb⟩ := pushSeq_fill 31 (by omega)
    refine ⟨by rw [hh], by rw [ht], by rw [hd], ?_⟩
    intro j hj1 hj2
    rw [hb j hj2]; omega
  | succ m hm ih =>
    obtain ⟨hh, ht, hd, hb⟩ := ih
    rw [pushSeq_succ]
    have hfull : qFull (pushSeq m) = true := by
      simp only [qFull, qNext, BLE_EVT_QUEUE_DEPTH, hh, ht, decide_eq_true_eq]
      omega
    unfold qPush
    simp only [hfull, if_true]
    refine ⟨?_, ?_, ?_, ?_⟩
    · simp only [qNext, BLE_EVT_QUEUE_DEPTH, hh]; omega
    · simp only [qNext, BLE_EVT_QUEUE_DEPTH, ht]; omega
    · simp only [hd]; omega
    · intro j hj1 hj2
      simp only [hh]
      by_cases hje : j = m % 32
      · subst hje
        rw [if_pos rfl]
        omega
      · rw [if_neg hje]
        have hjm : j < m := by omega
        rw [hb j hj1 hjm]
        have : (m - 1 - j) / 32 = (m - j) / 32 := by omega
        omega

theorem qPopN_spec {E} : ∀ (c : Nat) (q : EvtQueue E) (fuel : Nat),
    q.head < 32 → q.tail < 32 → c = (q.head + 32 - q.tail) % 32 → c ≤ fuel →
    (qPopN fuel q).1 = (List.range c).map (fun i => q.buf ((q.tail + i) % 32)) := by
  intro c
  induction c with
  | zero =>
    intro q fuel hh ht hc _
    have hempty : q.head = q.tail := by omega
    cases fuel with
    | zero => rfl
    | succ k => simp [qPopN, qPop, qEmpty, hempty]
  | succ c ih =>
    intro q fuel hh ht hc hf
    have hne : ¬ q.head = q.tail := by omega
    cases fuel with
    | zero => omega
    | succ k =>
      have hemp : qEmpty q = false := by simp [qEmpty, hne]
      simp only [qPopN, qPop, hemp, Bool.false_eq_true, if_false]
      have hrec := ih { q with tail := qNext q.tail } k hh
        (by simp only [qNext, BLE_EVT_QUEUE_DEPTH]; omega)
        (by simp only [qNext, BLE_EVT_QUEUE_DEPTH]; omega)
        (by omega)
      simp only [hrec, List.range_succ_eq_map, List.map_cons, List.map_map]
      refine List.cons_eq_cons.mpr ⟨?_, ?_⟩
      · show q.buf q.tail = q.buf ((q.tail + 0) % 32)
        congr 1
        omega
      · apply List.map_congr_left
        intro a _
        show q.buf ((qNext q.tail + a) % 32) = q.buf ((q.tail + (a + 1)) % 32)
        congr 1
        simp only [qNext, BLE_EVT_QUEUE_DEPTH]
        omega

theorem map_add_range (s n : Nat) :
    (List.range n).map (fun i => s + i) = List.range' s n := by
  apply List.ext_getElem
  · simp
  · intro i h1 h2
    simp

set_option maxRecDepth 40000 in
/-- C2 counterexample: 33 distinct events published against depth 32 drain as
the 31 (not 32) most recent, with a dropped count of 2 (not 1): the ring's
full test `Q_NEXT(head) == tail` leaves one slot unusable, so the queue holds
at most `BLE_EVT_QUEUE_DEPTH - 1` events. -/
theorem queue_depth_counterexample :
    (qPushList qInit (List.range 33)).dropped = 2 ∧
    (qPopN 64 (qPushList qInit (List.range 33))).1 = List.range' 2 31 ∧
    ¬((qPushList qInit (List.range 33)).dropped = 1 ∧
      (qPopN 64 (qPushList qInit (List.range 33))).1 = List.range' 1 32) := by
  refine ⟨by decide, by decide, ?_⟩
  intro h
  exact absurd h.1 (by decide)

/-- C2 (amended): publishing `32 + k` distinct events (`k ≥ 1`) with no
intervening drain drops `k + 1` of them, and draining then delivers the
`31 = capacity - 1` newest events in publish order. -/
theorem queue_bound_amended (k : Nat) (hk : 1 ≤ k) :
    (qPushList qInit (List.range (32 + k))).dropped = k + 1 ∧
    (qPopN (32 + k) (qPushList qInit (List.range (32 + k)))).1 =
      List.range' (k + 1) 31 := by
  obtain ⟨hh, ht, hd, hb⟩ := pushSeq_sat (32 + k) (by omega)
  constructor
  · show (pushSeq (32 + k)).dropped = k + 1
    omega
  · show (qPopN (32 + k) (pushSeq (32 + k))).1 = _
    rw [qPopN_spec 31 (pushSeq (32 + k)) (32 + k) (by omega) (by omega) (by omega)
      (by omega)]
    rw [← map_add_range (k + 1) 31]
    apply List.map_congr_left
    intro i hi
    rw [List.mem_range] at hi
    rw [ht, hb (((32 + k + 1) % 32 + i) % 32) (by omega) (by omega)]
    omega

/-- Witness for `queue_bound_amended` at `k = 1`. -/
theorem queue_bound_amended_witness :
    (qPushList qInit (List.range 33)).dropped = 2 ∧
    (qPopN 33 (qPushList qInit (List.range 33))).1 = List.range' 2 31 :=
  queue_bound_amended 1 (by decide)

/-! ## Subscriber-table lemmas -/

theorem subscribeLoop_all_used (cb ctx : Nat) :
    ∀ (subs : List Sub) (i : Nat), (∀ s ∈ subs, s.used = true) →
      subscribeLoop cb ctx subs i = (0, subs) := by
  intro subs
  induction subs with
  | nil => intro i _; rfl
  | cons s rest ih =>
    intro i hall
    have hs : s.used = true := hall s (List.mem_cons_self s rest)
    simp only [subscribeLoop, hs, Bool.not_true, Bool.false_eq_true, if_false,
      ih (i + 1) (fun x hx => hall x (List.mem_cons_of_mem s hx))]

theorem subscribeLoop_free (cb ctx : Nat) :
    ∀ (subs : List Sub) (i : Nat), ¬(∀ s ∈ subs, s.used = true) →
      ∃ j, ∃ hj : j < subs.length, (subs.get ⟨j, hj⟩).used = false ∧
        subscribeLoop cb ctx subs i = (i + j + 1, subs.set j ⟨cb, ctx, true⟩) := by
  intro subs
  induction subs with
  | nil => intro i h; exact absurd (by intro s hs; cases hs) h
  | cons s rest ih =>
    intro i h
    by_cases hs : s.used = true
    · have hrest : ¬(∀ x ∈ rest, x.used = true) := by
        intro hall; exact h (by
          intro x hx
          rcases List.mem_cons.1 hx with h1 | h2
          · rw [h1]; exact hs
          · exact hall x h2)
      obtain ⟨j, hj, hfree, heq⟩ := ih (i + 1) hrest
      refine ⟨j + 1, by simpa using Nat.succ_lt_succ hj, by simpa using hfree, ?_⟩
      simp only [subscribeLoop, hs, Bool.not_true, Bool.false_eq_true, if_false, heq,
        List.set_cons_succ, Prod.mk.injEq]
      exact ⟨by omega, trivial⟩
    · refine ⟨0, by simp, by simpa using hs, ?_⟩
      simp only [subscribeLoop, Bool.not_eq_true'] at hs ⊢
      simp [hs]

/-- C9: `subscribe` yields the zero token exactly when the callback is null or
all `BLE_MAX_SUBSCRIBERS = 4` slots are in use; otherwise it reserves a free
slot and returns its 1-based index.  `unsubscribe` clears slot `token - 1` for
a valid token and leaves the table unchanged for `token ≤ 0` or `token > 4`. -/
theorem subscribe_unsubscribe_spec :
    (∀ (cb ctx : Nat) (subs : List Sub), subs.length = 4 →
      ((ble_subscribe cb ctx subs).1 = 0 ↔ cb = 0 ∨ ∀ s ∈ subs, s.used = true)) ∧
    (∀ (cb ctx : Nat) (subs : List Sub), subs.length = 4 → cb ≠ 0 →
      ¬(∀ s ∈ subs, s.used = true) →
      ∃ j, ∃ hj : j < subs.length, (subs.get ⟨j, hj⟩).used = false ∧
        ble_subscribe cb ctx subs = (j + 1, subs.set j ⟨cb, ctx, true⟩)) ∧
    (∀ (token : Int) (subs : List Sub), subs.length = 4 → 1 ≤ token → token ≤ 4 →
      ble_unsubscribe token subs = subs.set (token - 1).toNat ⟨0, 0, false⟩) ∧
    (∀ (token : Int) (subs : List Sub), subs.length = 4 → (token ≤ 0 ∨ 4 < token) →
      ble_unsubscribe token subs = subs) := by
  refine ⟨?_, ?_, ?_, ?_⟩
  · intro cb ctx subs _
    by_cases hcb : cb = 0
    · simp [ble_subscribe, hcb]
    · simp only [ble_subscribe, if_neg hcb]
      constructor
      · intro h0
        by_contra hcon
        push_neg at hcon
        obtain ⟨hne, hnotall⟩ := hcon
        have hnotall' : ¬(∀ s ∈ subs, s.used = true) := by
          obtain ⟨s, hs, hsu⟩ := hnotall
          intro hall
          exact hsu (hall s hs)
        obtain ⟨j, hj, _, heq⟩ := subscribeLoop_free cb ctx subs 0 hnotall'
        rw [heq] at h0
        simp at h0
      · intro h
        rcases h with h | h
        · exact absurd h hcb
        · rw [subscribeLoop_all_used cb ctx subs 0 h]
  · intro cb ctx subs _ hcb hnotall
    obtain ⟨j, hj, hfree, heq⟩ := subscribeLoop_free cb ctx subs 0 hnotall
    refine ⟨j, hj, hfree, ?_⟩
    simp only [ble_subscribe, if_neg hcb, heq]
    congr 1
    omega
  · intro token subs hlen h1 h4
    have hnot : ¬ token ≤ 0 := by omega
    have hidx : (token - 1).toNat < subs.length := by omega
    simp only [ble_unsubscribe, if_neg hnot, if_pos hidx]
  · intro token subs hlen h
    rcases h with h | h
    · simp [ble_unsubscribe, h]
    · have hnot : ¬ token ≤ 0 := by omega
      have hidx : ¬ (token - 1).toNat < subs.length := by omega
      simp only [ble_unsubscribe, if_neg hnot, if_neg hidx]

/-- Witness for `subscribe_unsubscribe_spec` on a concrete 4-slot table. -/
theorem subscribe_unsubscribe_spec_witness :
    ((ble_subscribe 7 9 [⟨1, 1, true⟩, ⟨0, 0, false⟩, ⟨0, 0, false⟩, ⟨0, 0, false⟩]).1 = 0 ↔
      (7 : Nat) = 0 ∨
        ∀ s ∈ ([⟨1, 1, true⟩, ⟨0, 0, false⟩, ⟨0, 0, false⟩, ⟨0, 0, false⟩] : List Sub),
          s.used = true) ∧
    ble_unsubscribe 5 [⟨1, 1, true⟩, ⟨0, 0, false⟩, ⟨0, 0, false⟩, ⟨0, 0, false⟩] =
      [⟨1, 1, true⟩, ⟨0, 0, false⟩, ⟨0, 0, false⟩, ⟨0, 0, false⟩] :=
  ⟨subscribe_unsubscribe_spec.1 7 9 _ (by decide),
   subscribe_unsubscribe_spec.2.2.2 5 _ (by decide) (Or.inr (by decide))⟩

/-! ## Burst-transmitter theorems -/

/-- C7 counterexample: for the input `">HIJK"`, which already starts with the
marker, `ble_send_text` still prepends another marker — the wire payload is
`">>HIJK"`, not the claimed unchanged `">HIJK"`. -/
theorem send_text_marker_counterexample :
    ble_send_text [62, 72, 73, 74, 75] = (5, some [62, 62, 72, 73, 74, 75]) ∧
    ([62, 62, 72, 73, 74, 75] : Str) ≠ [62, 72, 73, 74, 75] := by
  refine ⟨by decide, by decide⟩

/-- C7 (amended): `sendText` returns `0` for empty input without
transmitting; for non-empty input it unconditionally prepends the `'>'`
marker (even when the input already starts with one), truncates the wire
payload to `ADV_TEXT_MAX = 24` bytes, and returns the count of original
input bytes rather than the wire length. -/
theorem send_text_amended (data : Str) (hd : data ≠ []) :
    ble_send_text data = (data.length, some ((62 :: data).take ADV_TEXT_MAX)) ∧
    ble_send_text [] = (0, none) := by
  refine ⟨?_, rfl⟩
  simp [ble_send_text, hd, advBurstPayload]

/-- Witness for `send_text_amended` at a concrete input. -/
theorem send_text_amended_witness :
    ble_send_text [72] = (([72] : Str).length, some ((62 :: [72]).take ADV_TEXT_MAX)) ∧
    ble_send_text [] = (0, none) :=
  send_text_amended [72] (by decide)

/-! ## Validator (`is_valid_utf8_line`, `is_parcel_like`) -/

/-- `MIN_SINGLE_LEN`. -/
def MIN_SINGLE_LEN : Nat := 5

/-- `is_valid_utf8_line` over the content bytes.  Note that for 3- and 4-byte
sequences the source tests the continuation bytes OR-combined:
`((c1 | c2) & 0xC0) != 0x80` resp. `((c1 | c2 | c3) & 0xC0) != 0x80`. -/
def is_valid_utf8_line : List Nat → Bool
  | [] => true
  | c :: rest =>
    if c < 0x20 || c == 0x7F then false
    else if c < 0x80 then is_valid_utf8_line rest
    else if c &&& 0xE0 == 0xC0 then
      match rest with
      | [] => false
      | c1 :: rest2 =>
        if c1 &&& 0xC0 != 0x80 then false
        else
          let cp := ((c &&& 0x1F) <<< 6) ||| (c1 &&& 0x3F)
          if cp < 0x80 then false else is_valid_utf8_line rest2
    else if c &&& 0xF0 == 0xE0 then
      match rest with
      | c1 :: c2 :: rest3 =>
        if (c1 ||| c2) &&& 0xC0 != 0x80 then false
        else
          let cp := ((c &&& 0x0F) <<< 12) ||| ((c1 &&& 0x3F) <<< 6) ||| (c2 &&& 0x3F)
          if cp < 0x800 then false
          else if 0xD800 ≤ cp && cp ≤ 0xDFFF then false
          else is_valid_utf8_line rest3
      | _ => false
    else if c &&& 0xF8 == 0xF0 then
      match rest with
      | c1 :: c2 :: c3 :: rest4 =>
        if (c1 ||| c2 ||| c3) &&& 0xC0 != 0x80 then false
        else
          let cp := ((c &&& 0x07) <<< 18) ||| ((c1 &&& 0x3F) <<< 12) |||
                    ((c2 &&& 0x3F) <<< 6) ||| (c3 &&& 0x3F)
          if cp < 0x10000 || 0x10FFFF < cp then false
          else is_valid_utf8_line rest4
      | _ => false
    else false

/-- `is_parcel_like`: two capital letters, at least one decimal digit, then
`':'` right after the digit run. -/
def is_parcel_like (s : Str) : Bool :=
  match s with
  | c0 :: c1 :: rest =>
    if s.length < 4 then false
    else if !(65 ≤ c0 && c0 ≤ 90 && 65 ≤ c1 && c1 ≤ 90) then false
    else
      match rest with
      | [] => false
      | d :: _ =>
        if !isDigitB d then false
        else
          let afterDigits := rest.dropWhile isDigitB
          match afterDigits with
          | [] => false
          | x :: _ => x == colonByte
  | _ => false

/-- C3 (code bug): the OR-combined continuation test lets a non-continuation
byte slip into a multi-byte sequence.  The 5-byte content `E1 05 85 41 41`
is accepted by `is_valid_utf8_line` (and, being of length `MIN_SINGLE_LEN`,
by the whole ingest check) although it contains the control byte `0x05 < 0x20`
and is not well-formed UTF-8, contradicting the claim and the call-site
comment "accept only valid UTF-8, reject control bytes and malformed
sequences". -/
theorem utf8_validator_accepts_control_byte :
    is_valid_utf8_line [0xE1, 0x05, 0x85, 0x41, 0x41] = true ∧
    0x05 ∈ ([0xE1, 0x05, 0x85, 0x41, 0x41] : List Nat) ∧
    (0x05 : Nat) < 0x20 ∧
    MIN_SINGLE_LEN ≤ ([0xE1, 0x05, 0x85, 0x41, 0x41] : List Nat).length := by
  refine ⟨by decide, by decide, by decide, by decide⟩

/-- C10: a call to `addMessageParcel` whose parcel carries numeric index 0
(the header) never completes the message: whatever else is stored, the
post-state is still not completed.  Completion can only happen on a call
inserting a parcel with index ≥ 1. -/
theorem header_parcel_never_completes (m : BluetoothMessage) (p : Str) (ci : Nat)
    (hnc : m.messageCompleted = false)
    (hci : idxOf? p colonByte = some ci)
    (hlen : 3 ≤ (p.take ci).length)
    (hidx : atol ((p.take ci).drop 2) = 0) :
    (addMessageParcel m p).messageCompleted = false := by
  have hsc : isSingleCommand p = false := by
    simp [isSingleCommand, hci]
  unfold addMessageParcel
  rw [hnc, hci, hsc]
  simp only [Bool.false_eq_true, if_false]
  by_cases hfind : (mapFind? (p.take ci) m.messageBox).isSome = true
  · rw [if_pos hfind]; exact hnc
  · rw [if_neg hfind, if_pos hlen]
    rw [hidx]
    rw [if_neg (by omega : ¬ (0 : Int) < 0), if_pos rfl]
    split
    all_goals try rfl
    split
    all_goals try rfl
    split
    all_goals rfl

/-- Witness for `header_parcel_never_completes`: the header `"AA0:F:T:AAAA"`
fed to a fresh assembler. -/
theorem header_parcel_never_completes_witness :
    (addMessageParcel (freshMessage 0)
      [65, 65, 48, 58, 70, 58, 84, 58, 65, 65, 65, 65]).messageCompleted = false :=
  header_parcel_never_completes (freshMessage 0)
    [65, 65, 48, 58, 70, 58, 84, 58, 65, 65, 65, 65] 3
    rfl (by decide) (by decide) (by decide)

/-! ## Dedup cache (`g_seen`, `seen_recently_payload`) -/

/-- `DEDUP_WINDOW_MS`. -/
def DEDUP_WINDOW_MS : Nat := 2000

/-- One `SeenEntry` (an expired entry keeps its timestamp but gets key `""`). -/
structure SeenEntry where
  key : Str
  ts : Nat
deriving Repr, DecidableEq

/-- The scan loop of `seen_recently_payload`: skip empty keys, clear entries
older than the window in place, return `true` on a key match (leaving the
remaining entries unscanned), `false` after a full pass. -/
def seenScan (w : Nat) (key : Str) (now : Nat) : List SeenEntry → Bool × List SeenEntry
  | [] => (false, [])
  | e :: rest =>
    if e.key.length = 0 then
      let r := seenScan w key now rest
      (r.1, e :: r.2)
    else if w < now - e.ts then
      let r := seenScan w key now rest
      (r.1, ⟨[], e.ts⟩ :: r.2)
    else if e.key = key then (true, e :: rest)
    else
      let r := seenScan w key now rest
      (r.1, e :: r.2)

/-- The dedup cache: the 128-slot ring `g_seen` plus the cursor `g_seen_head`. -/
structure DedupState where
  entries : List SeenEntry
  head : Nat
deriving Repr, DecidableEq

/-- `seen_recently_payload`: scan with lazy expiry; on a miss, insert
`(key, now)` at the cursor (`& 127` is `% 128`) and advance it. -/
def seen_recently_payload (w : Nat) (st : DedupState) (key : Str) (now : Nat) :
    Bool × DedupState :=
  let r := seenScan w key now st.entries
  if r.1 then (true, { st with entries := r.2 })
  else (false, ⟨r.2.set st.head ⟨key, now⟩, (st.head + 1) % 128⟩)

/-! ## In-flight assembler slots and sweeper -/

/-- `INFLIGHT_TTL_MS`. -/
def INFLIGHT_TTL_MS : Nat := 10 * 60 * 1000

/-- One `Inflight` slot. -/
structure Inflight where
  bm : BluetoothMessage
  lastTouchMs : Nat
deriving Repr, DecidableEq

/-- `inflight_reset`: placement-reconstruct a fresh `BluetoothMessage`
(timestamped at reset time) and zero the touch time. -/
def inflight_reset (now : Nat) : Inflight := ⟨freshMessage now, 0⟩

/-- `inflight_index_2`: map the two leading id letters to `[0, 676)`,
rejecting non-capital letters. -/
def inflight_index_2 (a b : Nat) : Option Nat :=
  if 65 ≤ a ∧ a ≤ 90 ∧ 65 ≤ b ∧ b ≤ 90 then some ((a - 65) * 26 + (b - 65)) else none

/-- `inflight_sweep`: reset every occupied, uncompleted slot whose age
reached the TTL. -/
def inflight_sweep (now : Nat) (slots : Nat → Inflight) : Nat → Inflight :=
  fun i =>
    let slot := slots i
    if slot.lastTouchMs = 0 then slot
    else if slot.bm.messageCompleted = false ∧ INFLIGHT_TTL_MS ≤ now - slot.lastTouchMs then
      inflight_reset now
    else slot

/-! ## Ingest path (`AdvCb::onResult`) -/

/-- `BLE_EVT_MAX_TEXT`. -/
def BLE_EVT_MAX_TEXT : Nat := 192

/-- A `BleEvent` as posted by the ingest callback (field truncations applied
where the source copies into the fixed-size buffers). -/
inductive BleEvent where
  | singleText (text : Str)
  | messageDone (id sender dest ck : Str) (msgLen : Nat) (snippet : Str)
deriving Repr, DecidableEq

/-- The protocol-engine state touched by the ingest path. -/
structure EngineState where
  dedup : DedupState
  dedupWindow : Nat
  inflight : Nat → Inflight

/-- `AdvCb::onResult` on the service-data bytes `sd`: validate, dedup, post
`SINGLE_TEXT`, feed the assembler when parcel-shaped (posting `MESSAGE_DONE`
and resetting the slot on completion), then sweep.  The returned list is the
sequence of `q_push` calls made during the callback. -/
def onResult (sd : Str) (now : Nat) (st : EngineState) : List BleEvent × EngineState :=
  if sd = [] then ([], st)
  else if sd.head? ≠ some 62 then ([], st)
  else if sd.length < 2 then ([], st)
  else
    let content := sd.drop 1
    let clen := sd.length - 1
    if ¬ is_valid_utf8_line content then ([], st)
    else if clen < MIN_SINGLE_LEN then ([], st)
    else
      let r := seen_recently_payload st.dedupWindow st.dedup sd now
      if r.1 then ([], { st with dedup := r.2 })
      else
        let st1 : EngineState := { st with dedup := r.2 }
        let ev := BleEvent.singleText (sd.take (BLE_EVT_MAX_TEXT - 1))
        if is_parcel_like content then
          match inflight_index_2 (content.getD 0 0) (content.getD 1 0) with
          | some idx =>
            let slot := st1.inflight idx
            let bm' := addMessageParcel slot.bm content
            let slotAfter : Inflight :=
              if bm'.messageCompleted then inflight_reset now else ⟨bm', now⟩
            let inf1 : Nat → Inflight :=
              fun j => if j = idx then slotAfter else st1.inflight j
            let evs :=
              if bm'.messageCompleted then
                [ev, BleEvent.messageDone (content.take 2) (bm'.idFromSender.take 7)
                  (bm'.idDestination.take 7) (bm'.checksum.take 4) bm'.message.length
                  (bm'.message.take (BLE_EVT_MAX_TEXT - 1))]
              else [ev]
            (evs, { st1 with inflight := inflight_sweep now inf1 })
          | none => ([ev], { st1 with inflight := inflight_sweep now st1.inflight })
        else ([ev], { st1 with inflight := inflight_sweep now st1.inflight })

/-- The process-start engine state: zeroed dedup ring, all slots empty. -/
def initEngine (w : Nat) : EngineState :=
  ⟨⟨List.replicate 128 ⟨[], 0⟩, 0⟩, w, fun _ => ⟨freshMessage 0, 0⟩⟩

/-- `SINGLE_TEXT` event test. -/
def isSingleTextEv : BleEvent → Bool
  | .singleText _ => true
  | _ => false

/-- Number of `SINGLE_TEXT` events in an emission list. -/
def countSingle (evs : List BleEvent) : Nat := (evs.filter isSingleTextEv).length

/-! ## Dedup / ingest lemmas -/

theorem seenScan_all_empty (w : Nat) (key : Str) (now : Nat) (n : Nat) :
    seenScan w key now (List.replicate n ⟨[], 0⟩) = (false, List.replicate n ⟨[], 0⟩) := by
  induction n with
  | zero => rfl
  | succ m ih => simp [List.replicate_succ, seenScan, ih]

/-- An accepted (marker, valid, long-enough, unseen) payload posts exactly one
`SINGLE_TEXT` event, commits the dedup insertion, and possibly touches the
assembler state. -/
theorem onResult_accepted (st : EngineState) (content : Str) (now : Nat)
    (hv : is_valid_utf8_line content = true)
    (hlen : MIN_SINGLE_LEN ≤ content.length)
    (hseen : (seen_recently_payload st.dedupWindow st.dedup (62 :: content) now).1 = false) :
    ∃ (extra : List BleEvent) (inf : Nat → Inflight),
      onResult (62 :: content) now st =
        (BleEvent.singleText ((62 :: content).take (BLE_EVT_MAX_TEXT - 1)) :: extra,
         { dedup := (seen_recently_payload st.dedupWindow st.dedup (62 :: content) now).2,
           dedupWindow := st.dedupWindow, inflight := inf }) ∧
      countSingle extra = 0 := by
  have hlen5 : 5 ≤ content.length := hlen
  unfold onResult
  rw [if_neg (by simp : ¬(62 :: content = [])),
      if_neg (by simp : ¬((62 :: content).head? ≠ some 62)),
      if_neg (by simp; omega : ¬((62 :: content).length < 2))]
  simp only [List.drop_succ_cons, List.drop_zero, List.length_cons,
    Nat.add_sub_cancel]
  rw [if_neg (by rw [hv]; exact not_not_intro rfl),
      if_neg (by show ¬(content.length < MIN_SINGLE_LEN); omega),
      if_neg (by rw [hseen]; exact Bool.false_ne_true)]
  by_cases hpl : is_parcel_like content = true
  · rw [if_pos hpl]
    cases hidx : inflight_index_2 (content.getD 0 0) (content.getD 1 0) with
    | none => exact ⟨[], _, rfl, rfl⟩
    | some idx =>
      cases hdone : (addMessageParcel (st.inflight idx).bm content).messageCompleted with
      | true =>
        simp only [hdone, if_true]
        exact ⟨[_], _, rfl, rfl⟩
      | false =>
        simp only [hdone, Bool.false_eq_true, if_false]
        exact ⟨[], _, rfl, rfl⟩
  · rw [if_neg hpl]
    exact ⟨[], _, rfl, rfl⟩

/-- A duplicate (seen within the window) payload posts nothing and only
commits the scan's lazy-expiry writes. -/
theorem onResult_dup (st : EngineState) (content : Str) (now : Nat)
    (hv : is_valid_utf8_line content = true)
    (hlen : MIN_SINGLE_LEN ≤ content.length)
    (hseen : (seen_recently_payload st.dedupWindow st.dedup (62 :: content) now).1 = true) :
    onResult (62 :: content) now st =
      ([], { st with
             dedup := (seen_recently_payload st.dedupWindow st.dedup (62 :: content) now).2 }) := by
  have hlen5 : 5 ≤ content.length := hlen
  unfold onResult
  rw [if_neg (by simp : ¬(62 :: content = [])),
      if_neg (by simp : ¬((62 :: content).head? ≠ some 62)),
      if_neg (by simp; omega : ¬((62 :: content).length < 2))]
  simp only [List.drop_succ_cons, List.drop_zero, List.length_cons,
    Nat.add_sub_cancel]
  rw [if_neg (by rw [hv]; exact not_not_intro rfl),
      if_neg (by show ¬(content.length < MIN_SINGLE_LEN); omega),
      if_pos hseen]

theorem countSingle_cons_single (x : Str) (l : List BleEvent) :
    countSingle (BleEvent.singleText x :: l) = countSingle l + 1 := by
  simp [countSingle, isSingleTextEv, List.filter_cons]

theorem seen_recently_eq_false (w : Nat) (key : Str) (now : Nat) (st : DedupState)
    (l : List SeenEntry) (h : seenScan w key now st.entries = (false, l)) :
    seen_recently_payload w st key now =
      (false, ⟨l.set st.head ⟨key, now⟩, (st.head + 1) % 128⟩) := by
  unfold seen_recently_payload
  rw [h]
  rfl

theorem seenScan_cons_match (w : Nat) (key : Str) (now : Nat) (e : SeenEntry)
    (rest : List SeenEntry) (h0 : ¬(e.key.length = 0)) (hw : ¬(w < now - e.ts))
    (hk : e.key = key) :
    seenScan w key now (e :: rest) = (true, e :: rest) := by
  conv_lhs => unfold seenScan
  rw [if_neg h0, if_neg hw, if_pos hk]

theorem seenScan_cons_expired (w : Nat) (key : Str) (now : Nat) (e : SeenEntry)
    (rest : List SeenEntry) (h0 : ¬(e.key.length = 0)) (hw : w < now - e.ts) :
    seenScan w key now (e :: rest) =
      ((seenScan w key now rest).1, ⟨[], e.ts⟩ :: (seenScan w key now rest).2) := by
  conv_lhs => unfold seenScan
  rw [if_neg h0, if_pos hw]

theorem seen_recently_eq_true (w : Nat) (key : Str) (now : Nat) (st : DedupState)
    (l : List SeenEntry) (h : seenScan w key now st.entries = (true, l)) :
    seen_recently_payload w st key now = (true, { st with entries := l }) := by
  unfold seen_recently_payload
  rw [h]
  rfl

/-- C4: feeding the identical marker-prefixed payload twice, the second time
within the dedup window of the first, posts exactly one `SINGLE_TEXT` event;
the matching lookup leaves the dedup entries — and hence the stored
timestamp — unchanged; feeding the payload once more after the window has
elapsed since the stored timestamp posts a second `SINGLE_TEXT` event. -/
theorem dedup_idempotence (w : Nat) (content : Str) (t1 t2 t3 : Nat)
    (hv : is_valid_utf8_line content = true)
    (hlen : MIN_SINGLE_LEN ≤ content.length)
    (h12 : t1 ≤ t2) (h2w : t2 - t1 ≤ w) (h23 : t2 ≤ t3) (h3w : w < t3 - t1) :
    countSingle (onResult (62 :: content) t1 (initEngine w)).1 = 1 ∧
    countSingle (onResult (62 :: content) t2
      (onResult (62 :: content) t1 (initEngine w)).2).1 = 0 ∧
    (onResult (62 :: content) t2 (onResult (62 :: content) t1 (initEngine w)).2).2.dedup =
      (onResult (62 :: content) t1 (initEngine w)).2.dedup ∧
    countSingle (onResult (62 :: content) t3
      (onResult (62 :: content) t2
        (onResult (62 :: content) t1 (initEngine w)).2).2).1 = 1 := by
  have hseen1 : seen_recently_payload w (initEngine w).dedup (62 :: content) t1 =
      (false, ⟨(⟨62 :: content, t1⟩ : SeenEntry) :: List.replicate 127 ⟨[], 0⟩, 1⟩) := by
    rw [seen_recently_eq_false w (62 :: content) t1 (initEngine w).dedup
      (List.replicate 128 ⟨[], 0⟩) (seenScan_all_empty w (62 :: content) t1 128)]
    rfl
  obtain ⟨ex1, inf1, heq1, hc1⟩ :=
    onResult_accepted (initEngine w) content t1 hv hlen
      (by rw [show (initEngine w).dedupWindow = w from rfl, hseen1])
  have hst1d : (onResult (62 :: content) t1 (initEngine w)).2.dedup =
      ⟨(⟨62 :: content, t1⟩ : SeenEntry) :: List.replicate 127 ⟨[], 0⟩, 1⟩ := by
    rw [heq1]
    show (seen_recently_payload (initEngine w).dedupWindow (initEngine w).dedup
      (62 :: content) t1).2 = _
    rw [show (initEngine w).dedupWindow = w from rfl, hseen1]
  have hst1w : (onResult (62 :: content) t1 (initEngine w)).2.dedupWindow = w := by
    rw [heq1]
    rfl
  have hk : ¬((62 :: content : Str).length = 0) := by simp
  have hscan2 : seenScan w (62 :: content) t2
      ((⟨62 :: content, t1⟩ : SeenEntry) :: List.replicate 127 ⟨[], 0⟩) =
      (true, (⟨62 :: content, t1⟩ : SeenEntry) :: List.replicate 127 ⟨[], 0⟩) :=
    seenScan_cons_match w (62 :: content) t2 ⟨62 :: content, t1⟩ _ hk
      (by omega : ¬(w < t2 - t1)) rfl
  have hseen2 : seen_recently_payload w
      ⟨(⟨62 :: content, t1⟩ : SeenEntry) :: List.replicate 127 ⟨[], 0⟩, 1⟩
      (62 :: content) t2 =
      (true, ⟨(⟨62 :: content, t1⟩ : SeenEntry) :: List.replicate 127 ⟨[], 0⟩, 1⟩) :=
    seen_recently_eq_true w (62 :: content) t2 _ _ hscan2
  have heq2 := onResult_dup (onResult (62 :: content) t1 (initEngine w)).2 content t2 hv hlen
    (by rw [hst1w, hst1d, hseen2])
  have hst2d : (onResult (62 :: content) t2
      (onResult (62 :: content) t1 (initEngine w)).2).2.dedup =
      ⟨(⟨62 :: content, t1⟩ : SeenEntry) :: List.replicate 127 ⟨[], 0⟩, 1⟩ := by
    rw [heq2]
    show (seen_recently_payload (onResult (62 :: content) t1 (initEngine w)).2.dedupWindow
      (onResult (62 :: content) t1 (initEngine w)).2.dedup (62 :: content) t2).2 = _
    rw [hst1w, hst1d, hseen2]
  have hst2w : (onResult (62 :: content) t2
      (onResult (62 :: content) t1 (initEngine w)).2).2.dedupWindow = w := by
    rw [heq2]
    show (onResult (62 :: content) t1 (initEngine w)).2.dedupWindow = w
    exact hst1w
  have hscan3 : seenScan w (62 :: content) t3
      ((⟨62 :: content, t1⟩ : SeenEntry) :: List.replicate 127 ⟨[], 0⟩) =
      (false, (⟨[], t1⟩ : SeenEntry) :: List.replicate 127 ⟨[], 0⟩) := by
    rw [seenScan_cons_expired w (62 :: content) t3 ⟨62 :: content, t1⟩ _ hk h3w,
      seenScan_all_empty w (62 :: content) t3 127]
  have hseen3 : seen_recently_payload w
      ⟨(⟨62 :: content, t1⟩ : SeenEntry) :: List.replicate 127 ⟨[], 0⟩, 1⟩
      (62 :: content) t3 =
      (false, ⟨((⟨[], t1⟩ : SeenEntry) :: List.replicate 127 ⟨[], 0⟩).set 1
        ⟨62 :: content, t3⟩, 2⟩) :=
    seen_recently_eq_false w (62 :: content) t3 _ _ hscan3
  obtain ⟨ex3, inf3, heq3, hc3⟩ :=
    onResult_accepted (onResult (62 :: content) t2
      (onResult (62 :: content) t1 (initEngine w)).2).2 content t3 hv hlen
      (by rw [hst2w, hst2d, hseen3])
  refine ⟨?_, ?_, ?_, ?_⟩
  · rw [heq1, countSingle_cons_single, hc1]
  · rw [heq2]
    rfl
  · rw [hst2d, hst1d]
  · rw [heq3, countSingle_cons_single, hc3]

/-! ## Assembler-slot invariants -/

/-- Some stored parcel has numeric index 0 (a header). -/
def headerPresent (box : SMap) : Prop :=
  ∃ kv ∈ box, 3 ≤ (kv : Str × Str).1.length ∧ atol (kv.1.drop 2) = 0

/-- Some stored parcel has numeric index ≥ 1 (a data parcel). -/
def dataPresent (box : SMap) : Prop :=
  ∃ kv ∈ box, 3 ≤ (kv : Str × Str).1.length ∧ 1 ≤ atol (kv.1.drop 2)

instance headerPresent.decidable (box : SMap) : Decidable (headerPresent box) := by
  unfold headerPresent
  infer_instance

instance dataPresent.decidable (box : SMap) : Decidable (dataPresent box) := by
  unfold dataPresent
  infer_instance

/-- A slot at rest is never complete, and a recorded header checksum always
comes with a stored header parcel. -/
def slotInv (s : Inflight) : Prop :=
  s.bm.messageCompleted = false ∧
  (s.bm.checksum ≠ [] → headerPresent s.bm.messageBox)

/-- The engine invariant over all 2-letter-id slots. -/
def EngineInv (st : EngineState) : Prop := ∀ i, slotInv (st.inflight i)

theorem mem_mapInsert_of_mem (k v : Str) (box : SMap) (a : Str × Str) (h : a ∈ box) :
    a ∈ mapInsert k v box := by
  induction box with
  | nil => cases h
  | cons hd tl ih =>
    obtain ⟨k', v'⟩ := hd
    unfold mapInsert
    by_cases h1 : strLtB k k' = true
    · rw [if_pos h1]
      exact List.mem_cons_of_mem _ h
    · rw [if_neg h1]
      by_cases h2 : strLtB k' k = true
      · rw [if_pos h2]
        rcases List.mem_cons.1 h with he | ht
        · exact he ▸ List.mem_cons_self _ _
        · exact List.mem_cons_of_mem _ (ih ht)
      · rw [if_neg h2]
        exact h

theorem strLtB_eq_of_not_lt : ∀ a b : Str, strLtB a b = false → strLtB b a = false → a = b := by
  intro a
  induction a with
  | nil =>
    intro b h1 _
    cases b with
    | nil => rfl
    | cons x xs => exact absurd h1 (by simp [strLtB])
  | cons x xs ih =>
    intro b h1 h2
    cases b with
    | nil => exact absurd h2 (by simp [strLtB])
    | cons y ys =>
      unfold strLtB at h1 h2
      by_cases hxy : x < y
      · rw [if_pos hxy] at h1; cases h1
      · by_cases hyx : y < x
        · rw [if_pos hyx] at h2; cases h2
        · rw [if_neg hxy, if_neg hyx] at h1
          rw [if_neg hyx, if_neg hxy] at h2
          have hxy' : x = y := by omega
          rw [hxy', ih ys h1 h2]

theorem mem_mapInsert_self (k v : Str) (box : SMap) (hfind : mapFind? k box = none) :
    (k, v) ∈ mapInsert k v box := by
  induction box with
  | nil => exact List.mem_singleton.mpr rfl
  | cons hd tl ih =>
    obtain ⟨k', v'⟩ := hd
    have hne : ¬(k' = k) := by
      intro he
      rw [mapFind?, if_pos he] at hfind
      cases hfind
    unfold mapInsert
    by_cases h1 : strLtB k k' = true
    · rw [if_pos h1]
      exact List.mem_cons_self _ _
    · rw [if_neg h1]
      by_cases h2 : strLtB k' k = true
      · rw [if_pos h2]
        have hfind' : mapFind? k tl = none := by
          rw [mapFind?, if_neg hne] at hfind
          exact hfind
        exact List.mem_cons_of_mem _ (ih hfind')
      · exact absurd (strLtB_eq_of_not_lt k' k (Bool.not_eq_true _ ▸ h2)
          (Bool.not_eq_true _ ▸ h1)) hne

theorem idxOf?_isSome_of_mem (s : Str) (c : Nat) (h : c ∈ s) :
    (idxOf? s c).isSome = true := by
  induction s with
  | nil => cases h
  | cons b rest ih =>
    unfold idxOf?
    by_cases hbc : b = c
    · rw [if_pos hbc]; rfl
    · rw [if_neg hbc]
      rcases List.mem_cons.1 h with he | ht
      · exact absurd he.symm hbc
      · simpa using ih ht

theorem parcel_like_mem_colon (s : Str) (h : is_parcel_like s = true) : colonByte ∈ s := by
  rcases s with _ | ⟨c0, s1⟩
  · simp [is_parcel_like] at h
  rcases s1 with _ | ⟨c1, rest⟩
  · simp [is_parcel_like] at h
  rcases rest with _ | ⟨d, rest'⟩
  · simp [is_parcel_like] at h
  rcases hade : (d :: rest').dropWhile isDigitB with _ | ⟨x, after⟩
  · simp [is_parcel_like, hade] at h
  · simp only [is_parcel_like, hade] at h
    by_cases h4 : (c0 :: c1 :: d :: rest' : Str).length < 4
    · rw [if_pos h4] at h; cases h
    · rw [if_neg h4] at h
      by_cases hlet : (!(65 ≤ c0 && c0 ≤ 90 && 65 ≤ c1 && c1 ≤ 90)) = true
      · rw [if_pos hlet] at h; cases h
      · rw [if_neg hlet] at h
        by_cases hd : (!isDigitB d) = true
        · rw [if_pos hd] at h; cases h
        · rw [if_neg hd] at h
          have hx : x = colonByte := by simpa using h
          have hxmem : x ∈ d :: rest' :=
            (List.dropWhile_sublist (p := isDigitB) (l := d :: rest')).subset
              (by rw [hade]; exact List.mem_cons_self x after)
          exact List.mem_cons_of_mem c0 (List.mem_cons_of_mem c1 (hx ▸ hxmem))

theorem parcel_like_colon (s : Str) (h : is_parcel_like s = true) :
    ∃ ci, idxOf? s colonByte = some ci := by
  have hs := idxOf?_isSome_of_mem s colonByte (parcel_like_mem_colon s h)
  cases hi : idxOf? s colonByte with
  | none => rw [hi] at hs; cases hs
  | some ci => exact ⟨ci, rfl⟩

theorem slotInv_reset (now : Nat) : slotInv (inflight_reset now) :=
  ⟨rfl, fun h => absurd rfl h⟩

theorem sweep_slotInv (now : Nat) (slots : Nat → Inflight) (i : Nat)
    (h : slotInv (slots i)) : slotInv (inflight_sweep now slots i) := by
  show slotInv (if (slots i).lastTouchMs = 0 then slots i
    else if (slots i).bm.messageCompleted = false ∧
        INFLIGHT_TTL_MS ≤ now - (slots i).lastTouchMs
      then inflight_reset now else slots i)
  split
  · exact h
  · split
    · exact slotInv_reset now
    · exact h

/-- One `addMessageParcel` call on an uncompleted slot with a colon-bearing
parcel: the header-checksum invariant is preserved, and if the call completes
the message then the final box holds a header parcel and a data parcel and
the checksum of the reassembled body equals the stored header checksum. -/
theorem addParcel_preserves (m : BluetoothMessage) (p : Str) (ci : Nat)
    (hnc : m.messageCompleted = false)
    (hci : idxOf? p colonByte = some ci)
    (hinv : m.checksum ≠ [] → headerPresent m.messageBox) :
    ((addMessageParcel m p).checksum ≠ [] →
      headerPresent (addMessageParcel m p).messageBox) ∧
    ((addMessageParcel m p).messageCompleted = true →
      headerPresent (addMessageParcel m p).messageBox ∧
      dataPresent (addMessageParcel m p).messageBox ∧
      calculateChecksum (reassembleBox (addMessageParcel m p).messageBox) =
        (addMessageParcel m p).checksum) := by
  have hsc : isSingleCommand p = false := by
    simp [isSingleCommand, hci]
  have hmono : headerPresent m.messageBox → headerPresent (mapInsert (p.take ci) p m.messageBox) := by
    rintro ⟨kv, hkv, hl, hz⟩
    exact ⟨kv, mem_mapInsert_of_mem _ _ _ _ hkv, hl, hz⟩
  unfold addMessageParcel
  rw [hnc, hci, hsc]
  simp only [Bool.false_eq_true, if_false]
  by_cases hfind : (mapFind? (p.take ci) m.messageBox).isSome = true
  · rw [if_pos hfind]
    refine ⟨hinv, fun hc => absurd (hnc ▸ hc) (by simp)⟩
  · rw [if_neg hfind]
    have hfnone : mapFind? (p.take ci) m.messageBox = none := by
      cases hf : mapFind? (p.take ci) m.messageBox with
      | none => rfl
      | some v => rw [hf] at hfind; exact absurd rfl hfind
    have hself : ∀ v, ((p.take ci, v) : Str × Str) ∈ mapInsert (p.take ci) v m.messageBox :=
      fun v => mem_mapInsert_self _ v _ hfnone
    by_cases hlen3 : 3 ≤ (p.take ci).length
    · rw [if_pos hlen3]
      by_cases hneg : atol ((p.take ci).drop 2) < 0
      · rw [if_pos hneg]
        exact ⟨fun hc => hmono (hinv hc), fun hc => absurd hc (by simp)⟩
      · rw [if_neg hneg]
        by_cases hz : atol ((p.take ci).drop 2) = 0
        · rw [if_pos hz]
          have hhdr : headerPresent (mapInsert (p.take ci) p m.messageBox) :=
            ⟨(p.take ci, p), hself p, hlen3, hz⟩
          split
          · split
            · split
              · exact ⟨fun _ => hhdr, fun hc => absurd hc (by simp)⟩
              · exact ⟨fun hc => hmono (hinv hc), fun hc => absurd hc (by simp)⟩
            · exact ⟨fun hc => hmono (hinv hc), fun hc => absurd hc (by simp)⟩
          · exact ⟨fun hc => hmono (hinv hc), fun hc => absurd hc (by simp)⟩
        · rw [if_neg hz]
          have hone : 1 ≤ atol ((p.take ci).drop 2) := by omega
          by_cases hbox2 : (mapInsert (p.take ci) p m.messageBox).length < 2
          · rw [if_pos hbox2]
            exact ⟨fun hc => hmono (hinv hc), fun hc => absurd hc (by simp)⟩
          · rw [if_neg hbox2]
            by_cases hcs : m.checksum = []
            · rw [if_pos hcs]
              exact ⟨fun hc => hmono (hinv hc), fun hc => absurd hc (by simp)⟩
            · rw [if_neg hcs]
              by_cases hok : calculateChecksum (reassembleBox (mapInsert (p.take ci) p m.messageBox)) = m.checksum
              · rw [if_pos hok]
                refine ⟨fun _ => hmono (hinv hcs), fun _ => ⟨hmono (hinv hcs), ?_, hok⟩⟩
                exact ⟨(p.take ci, p), hself p, hlen3, hone⟩
              · rw [if_neg hok]
                exact ⟨fun hc => hmono (hinv hc), fun hc => absurd hc (by simp)⟩
    · rw [if_neg hlen3]
      exact ⟨fun hc => hmono (hinv hc), fun hc => absurd hc (by simp)⟩

/-- C5: (a) the ingest callback preserves the slot lifecycle invariant — at
the end of every `onResult` no slot is in the complete state (a completing
call emits `MESSAGE_DONE` and resets its slot within the same callback), and
a recorded checksum always comes with a stored header parcel; (b) through
the ingest path (parcels always carry a colon) a slot completes only when a
header parcel (index 0) and at least one data parcel are stored and the
checksum of the reassembled body equals the header's declared checksum. -/
theorem ingest_slot_lifecycle :
    (∀ (sd : Str) (now : Nat) (st : EngineState), EngineInv st →
      EngineInv (onResult sd now st).2) ∧
    (∀ (m : BluetoothMessage) (p : Str) (ci : Nat),
      m.messageCompleted = false →
      idxOf? p colonByte = some ci →
      (m.checksum ≠ [] → headerPresent m.messageBox) →
      (addMessageParcel m p).messageCompleted = true →
      headerPresent (addMessageParcel m p).messageBox ∧
      dataPresent (addMessageParcel m p).messageBox ∧
      calculateChecksum (reassembleBox (addMessageParcel m p).messageBox) =
        (addMessageParcel m p).checksum) := by
  constructor
  · intro sd now st hInv
    have hsw : ∀ (f : Nat → Inflight), (∀ i, slotInv (f i)) →
        ∀ i, slotInv (inflight_sweep now f i) :=
      fun f hf i => sweep_slotInv now f i (hf i)
    simp only [onResult]
    repeat' split
    all_goals intro i
    all_goals try exact hInv i
    all_goals try exact hsw st.inflight hInv i
    all_goals
      rename_i hpl xo idx hidx hdone
      refine hsw _ ?_ i
      intro j
      dsimp only
      by_cases hj : j = idx
      case pos =>
        subst hj
        rw [if_pos rfl]
        first
        | exact slotInv_reset now
        | · obtain ⟨ci, hci⟩ := parcel_like_colon _ hpl
            exact ⟨by simpa using hdone,
              (addParcel_preserves (st.inflight j).bm (sd.drop 1) ci
                (hInv j).1 hci (hInv j).2).1⟩
      case neg =>
        rw [if_neg hj]
        exact hInv j
  · intro m p ci hnc hci hinv
    exact fun hc => (addParcel_preserves m p ci hnc hci hinv).2 hc

/-- Witness for `ingest_slot_lifecycle`: part (a) on the payload `">HELLO"`
against the fresh engine, part (b) on a slot holding the header
`"AA0:F:T:PFAA"` completed by the data parcel `"AA1:HI"`
(`"PFAA"` is the checksum of `"HI"`). -/
theorem ingest_slot_lifecycle_witness :
    EngineInv (onResult [62, 72, 69, 76, 76, 79] 5 (initEngine 2000)).2 ∧
    (headerPresent (addMessageParcel (addMessageParcel (freshMessage 0)
        [65, 65, 48, 58, 70, 58, 84, 58, 80, 70, 65, 65])
        [65, 65, 49, 58, 72, 73]).messageBox ∧
     dataPresent (addMessageParcel (addMessageParcel (freshMessage 0)
        [65, 65, 48, 58, 70, 58, 84, 58, 80, 70, 65, 65])
        [65, 65, 49, 58, 72, 73]).messageBox ∧
     calculateChecksum (reassembleBox (addMessageParcel (addMessageParcel (freshMessage 0)
        [65, 65, 48, 58, 70, 58, 84, 58, 80, 70, 65, 65])
        [65, 65, 49, 58, 72, 73]).messageBox) =
       (addMessageParcel (addMessageParcel (freshMessage 0)
        [65, 65, 48, 58, 70, 58, 84, 58, 80, 70, 65, 65])
        [65, 65, 49, 58, 72, 73]).checksum) :=
  ⟨ingest_slot_lifecycle.1 [62, 72, 69, 76, 76, 79] 5 (initEngine 2000)
      (fun _ => ⟨rfl, fun h => absurd rfl h⟩),
   ingest_slot_lifecycle.2
      (addMessageParcel (freshMessage 0) [65, 65, 48, 58, 70, 58, 84, 58, 80, 70, 65, 65])
      [65, 65, 49, 58, 72, 73] 3 (by decide) (by decide) (by decide) (by decide)⟩

/-! ## Sender-side parcel shapes and round-trip machinery -/

/-- The index-0 header parcel built by `splitDataIntoParcels`:
`"<id>0:<from>:<dest>:<checksum>"`. -/
def headerParcel (rid sender dest text : Str) : Str :=
  rid ++ [48] ++ [colonByte] ++ sender ++ [colonByte] ++ dest ++ [colonByte] ++
    calculateChecksum text

/-- Chunk `i` (0-based) of the message text:
`substring(i*20, min((i+1)*20, len))`. -/
def dataChunk (text : Str) (i : Nat) : Str :=
  (text.drop (i * TEXT_LENGTH_PER_PARCEL)).take TEXT_LENGTH_PER_PARCEL

/-- The data parcel of 1-based index `j` built by `splitDataIntoParcels`:
`"<id><j>:<chunk (j-1)>"`. -/
def dataParcel (rid text : Str) (j : Nat) : Str :=
  (rid ++ natToDec j) ++ [colonByte] ++ dataChunk text (j - 1)

/-- The parcel count `⌈len / 20⌉` computed by `splitDataIntoParcels`. -/
def numParcels (text : Str) : Nat :=
  (text.length + TEXT_LENGTH_PER_PARCEL - 1) / TEXT_LENGTH_PER_PARCEL

/-- Feeding a sequence of parcels into an assembler object. -/
def feedParcels (m : BluetoothMessage) (ps : List Str) : BluetoothMessage :=
  ps.foldl addMessageParcel m

/-- Ordered insertion of a parcel index, mirroring `mapInsert`'s branch
structure on `strLtB` of the corresponding keys (no-op on a present index). -/
def idxInsert (j : Nat) : List Nat → List Nat
  | [] => [j]
  | i :: rest =>
    if j < i then j :: i :: rest
    else if i < j then i :: idxInsert j rest
    else i :: rest

/-- The received index set, in key-sort order, after feeding indices in the
order `F`. -/
def sortOf (F : List Nat) : List Nat := F.foldl (fun acc j => idxInsert j acc) []

/-- The parcel map of an assembler slot that has received the header and the
data parcels with (sorted) indices `S`. -/
def canonicalBox (rid sender dest text : Str) (S : List Nat) : SMap :=
  (rid ++ [48], headerParcel rid sender dest text) ::
    S.map (fun j => (rid ++ [j + 48], dataParcel rid text j))

/-- The assembler state after the header and the data parcels with sorted
indices `S` (still accumulating). -/
def canonicalState (rid sender dest text : Str) (S : List Nat) (ts : Nat) :
    BluetoothMessage :=
  { messageCompleted := false, id := rid, idFromSender := sender,
    idDestination := dest, message := [], checksum := calculateChecksum text,
    messageBox := canonicalBox rid sender dest text S, timeStamp := ts }

theorem sumBytes_eq_sum (l : Str) : sumBytes l = l.sum := by
  rw [List.sum_eq_foldl]
  rfl

theorem sumBytes_append (a b : Str) : sumBytes (a ++ b) = sumBytes a + sumBytes b := by
  simp [sumBytes_eq_sum]

theorem idxOf?_append (xs rest : Str) (c : Nat) (h : c ∉ xs) :
    idxOf? (xs ++ c :: rest) c = some xs.length := by
  induction xs with
  | nil => simp [idxOf?]
  | cons b bs ih =>
    have hb : ¬(b = c) := fun he => h (he ▸ List.mem_cons_self b bs)
    simp only [List.cons_append, idxOf?, if_neg hb, List.append_eq,
      ih (fun hm => h (List.mem_cons_of_mem b hm)), Option.map_some', List.length_cons]

theorem strLtB_append_last_lt (u : Str) (x y : Nat) (h : x < y) :
    strLtB (u ++ [x]) (u ++ [y]) = true := by
  induction u with
  | nil => simp [strLtB, h]
  | cons c cs ih => simpa [strLtB] using ih

theorem strLtB_append_last_ge (u : Str) (x y : Nat) (h : ¬ x < y) :
    strLtB (u ++ [x]) (u ++ [y]) = false := by
  induction u with
  | nil =>
    by_cases hyx : y < x
    · simp [strLtB, h, hyx]
    · simp [strLtB, h, hyx]
  | cons c cs ih => simpa [strLtB] using ih

theorem natToDec_digit (j : Nat) (h1 : 1 ≤ j) (h9 : j ≤ 9) : natToDec j = [j + 48] := by
  interval_cases j <;> rfl

theorem atol_digit (j : Nat) (h1 : 1 ≤ j) (h9 : j ≤ 9) : atol [j + 48] = (j : Int) := by
  interval_cases j <;> rfl

theorem calcChecksum_ne_nil (s : Str) : calculateChecksum s ≠ [] := by
  unfold calculateChecksum
  split <;> simp

theorem calcChecksum_no_colon (s : Str) : colonByte ∉ calculateChecksum s := by
  unfold calculateChecksum
  intro hmem
  split at hmem <;>
    · simp only [colonByte, List.mem_cons, List.not_mem_nil, or_false] at hmem
      omega

/-- Two non-empty strings whose byte sums differ and both lie under `26⁴`
have different checksums. -/
theorem calcChecksum_injective (x y : Str) (hx : x ≠ []) (hy : y ≠ [])
    (hbx : sumBytes x < 456976) (hby : sumBytes y < 456976)
    (hne : sumBytes x ≠ sumBytes y) :
    calculateChecksum x ≠ calculateChecksum y := by
  unfold calculateChecksum
  rw [if_neg hx, if_neg hy]
  intro h
  simp only [List.cons.injEq, and_true] at h
  omega

theorem sum_le_mul_length (l : List Nat) (h : ∀ c ∈ l, c ≤ 255) :
    l.sum ≤ 255 * l.length := by
  induction l with
  | nil => simp
  | cons a t ih =>
    have ha := h a (List.mem_cons_self a t)
    have ht := ih (fun c hc => h c (List.mem_cons_of_mem a hc))
    simp only [List.sum_cons, List.length_cons]
    omega

theorem sublist_sum_le {l1 l2 : List Nat} (h : l1.Sublist l2) : l1.sum ≤ l2.sum := by
  induction h with
  | slnil => exact le_refl _
  | cons a _ ih => simp only [List.sum_cons]; omega
  | cons₂ a _ ih => simp only [List.sum_cons]; omega

theorem sublist_sum_lt {l1 l2 : List Nat} (h : l1.Sublist l2)
    (hpos : ∀ x ∈ l2, 1 ≤ x) (hlen : l1.length < l2.length) : l1.sum < l2.sum := by
  induction h with
  | slnil => omega
  | cons a h ih =>
    have hle := sublist_sum_le h
    have ha := hpos a (List.mem_cons_self _ _)
    simp only [List.sum_cons]
    omega
  | cons₂ a h ih =>
    simp only [List.length_cons] at hlen
    have := ih (fun x hx => hpos x (List.mem_cons_of_mem a hx)) (by omega)
    simp only [List.sum_cons]
    omega

theorem numParcels_zero (text : Str) : numParcels text = 0 ↔ text.length = 0 := by
  unfold numParcels TEXT_LENGTH_PER_PARCEL
  omega

theorem dataChunk_succ (text : Str) (i : Nat) :
    dataChunk text (i + 1) = dataChunk (text.drop TEXT_LENGTH_PER_PARCEL) i := by
  unfold dataChunk
  rw [List.drop_drop]
  congr 2
  ring

theorem numParcels_drop (text : Str) (h : text.length ≠ 0) :
    numParcels text = numParcels (text.drop TEXT_LENGTH_PER_PARCEL) + 1 := by
  unfold numParcels TEXT_LENGTH_PER_PARCEL
  rw [List.length_drop]
  omega

theorem chunks_join_aux : ∀ (fuel : Nat) (text : Str),
    text.length ≤ TEXT_LENGTH_PER_PARCEL * fuel →
    ((List.range (numParcels text)).map (dataChunk text)).flatten = text := by
  intro fuel
  induction fuel with
  | zero =>
    intro text h
    have h0 : text.length = 0 := by
      unfold TEXT_LENGTH_PER_PARCEL at h
      omega
    rw [(numParcels_zero text).2 h0]
    simp [List.length_eq_zero.1 h0]
  | succ f ih =>
    intro text h
    by_cases h0 : text.length = 0
    · rw [(numParcels_zero text).2 h0]
      simp [List.length_eq_zero.1 h0]
    · rw [numParcels_drop text h0, List.range_succ_eq_map]
      have hmap : (List.range (numParcels (text.drop TEXT_LENGTH_PER_PARCEL))).map
            (dataChunk text ∘ Nat.succ) =
          (List.range (numParcels (text.drop TEXT_LENGTH_PER_PARCEL))).map
            (dataChunk (text.drop TEXT_LENGTH_PER_PARCEL)) :=
        List.map_congr_left (fun i _ => dataChunk_succ text i)
      simp only [List.map_cons, List.map_map, List.flatten_cons, hmap]
      rw [ih (text.drop TEXT_LENGTH_PER_PARCEL)
        (by rw [List.length_drop]; unfold TEXT_LENGTH_PER_PARCEL at *; omega)]
      have h00 : dataChunk text 0 = text.take TEXT_LENGTH_PER_PARCEL := by
        unfold dataChunk
        simp
      rw [h00, List.take_append_drop]

theorem chunks_join (text : Str) :
    ((List.range (numParcels text)).map (dataChunk text)).flatten = text :=
  chunks_join_aux text.length text (by unfold TEXT_LENGTH_PER_PARCEL; omega)

theorem mem_idxInsert {x j : Nat} : ∀ {S : List Nat}, x ∈ idxInsert j S → x = j ∨ x ∈ S := by
  intro S
  induction S with
  | nil => intro h; simpa [idxInsert] using h
  | cons i rest ih =>
    intro h
    unfold idxInsert at h
    by_cases h1 : j < i
    · rw [if_pos h1] at h
      rcases List.mem_cons.1 h with he | ht
      · exact Or.inl he
      · exact Or.inr ht
    · rw [if_neg h1] at h
      by_cases h2 : i < j
      · rw [if_pos h2] at h
        rcases List.mem_cons.1 h with he | ht
        · exact Or.inr (he ▸ List.mem_cons_self i rest)
        · rcases ih ht with hj | hr
          · exact Or.inl hj
          · exact Or.inr (List.mem_cons_of_mem i hr)
      · rw [if_neg h2] at h
        exact Or.inr h

theorem mem_idxInsert_self (j : Nat) : ∀ (S : List Nat), j ∈ idxInsert j S := by
  intro S
  induction S with
  | nil => simp [idxInsert]
  | cons i rest ih =>
    unfold idxInsert
    by_cases h1 : j < i
    · rw [if_pos h1]; exact List.mem_cons_self j _
    · rw [if_neg h1]
      by_cases h2 : i < j
      · rw [if_pos h2]; exact List.mem_cons_of_mem i ih
      · rw [if_neg h2]
        have : i = j := by omega
        exact this ▸ List.mem_cons_self i rest

theorem mem_idxInsert_of_mem {x j : Nat} : ∀ {S : List Nat}, x ∈ S → x ∈ idxInsert j S := by
  intro S
  induction S with
  | nil => intro h; cases h
  | cons i rest ih =>
    intro h
    unfold idxInsert
    by_cases h1 : j < i
    · rw [if_pos h1]; exact List.mem_cons_of_mem j h
    · rw [if_neg h1]
      by_cases h2 : i < j
      · rw [if_pos h2]
        rcases List.mem_cons.1 h with he | ht
        · exact he ▸ List.mem_cons_self i _
        · exact List.mem_cons_of_mem i (ih ht)
      · rw [if_neg h2]; exact h

theorem length_idxInsert (j : Nat) : ∀ (S : List Nat), j ∉ S →
    (idxInsert j S).length = S.length + 1 := by
  intro S
  induction S with
  | nil => intro _; rfl
  | cons i rest ih =>
    intro hj
    unfold idxInsert
    by_cases h1 : j < i
    · rw [if_pos h1]; rfl
    · rw [if_neg h1]
      by_cases h2 : i < j
      · rw [if_pos h2]
        simp only [List.length_cons, ih (fun hm => hj (List.mem_cons_of_mem i hm))]
      · rw [if_neg h2]
        exact absurd (by omega : i = j) (fun he => hj (he ▸ List.mem_cons_self i rest))

theorem pairwise_idxInsert (j : Nat) : ∀ (S : List Nat),
    List.Pairwise (· < ·) S → List.Pairwise (· < ·) (idxInsert j S) := by
  intro S
  induction S with
  | nil => intro _; simp [idxInsert]
  | cons i rest ih =>
    intro hp
    obtain ⟨hi, hrest⟩ := List.pairwise_cons.1 hp
    unfold idxInsert
    by_cases h1 : j < i
    · rw [if_pos h1]
      exact List.pairwise_cons.2 ⟨fun b hb => by
        rcases List.mem_cons.1 hb with he | ht
        · omega
        · have := hi b ht; omega, hp⟩
    · rw [if_neg h1]
      by_cases h2 : i < j
      · rw [if_pos h2]
        refine List.pairwise_cons.2 ⟨fun b hb => ?_, ih hrest⟩
        rcases mem_idxInsert hb with he | hm
        · omega
        · exact hi b hm
      · rw [if_neg h2]; exact hp

theorem sortOf_append (F : List Nat) (j : Nat) :
    sortOf (F ++ [j]) = idxInsert j (sortOf F) := by
  unfold sortOf
  rw [List.foldl_append]
  rfl

theorem sortOf_foldl_mem (x : Nat) : ∀ (F acc : List Nat),
    (x ∈ F.foldl (fun acc j => idxInsert j acc) acc ↔ x ∈ acc ∨ x ∈ F) := by
  intro F
  induction F with
  | nil => intro acc; simp
  | cons j F ih =>
    intro acc
    rw [List.foldl_cons, ih (idxInsert j acc)]
    constructor
    · rintro (hm | hm)
      · rcases mem_idxInsert hm with he | ha
        · exact Or.inr (he ▸ List.mem_cons_self j F)
        · exact Or.inl ha
      · exact Or.inr (List.mem_cons_of_mem j hm)
    · rintro (hm | hm)
      · exact Or.inl (mem_idxInsert_of_mem hm)
      · rcases List.mem_cons.1 hm with he | hf
        · exact Or.inl (he ▸ mem_idxInsert_self x acc)
        · exact Or.inr hf

theorem sortOf_mem (x : Nat) (F : List Nat) : x ∈ sortOf F ↔ x ∈ F := by
  unfold sortOf
  rw [sortOf_foldl_mem x F []]
  simp

theorem sortOf_pairwise (F : List Nat) : List.Pairwise (· < ·) (sortOf F) := by
  unfold sortOf
  have : ∀ (G acc : List Nat), List.Pairwise (· < ·) acc →
      List.Pairwise (· < ·) (G.foldl (fun acc j => idxInsert j acc) acc) := by
    intro G
    induction G with
    | nil => intro acc h; exact h
    | cons j G ih => intro acc h; exact ih _ (pairwise_idxInsert j acc h)
  exact this F [] (by simp)

theorem sortOf_length (F : List Nat) (hnd : F.Nodup) : (sortOf F).length = F.length := by
  unfold sortOf
  have : ∀ (G acc : List Nat), G.Nodup → (∀ x ∈ G, x ∉ acc) →
      (G.foldl (fun acc j => idxInsert j acc) acc).length = acc.length + G.length := by
    intro G
    induction G with
    | nil => intro acc _ _; simp
    | cons j G ih =>
      intro acc hnd hdisj
      rw [List.foldl_cons, ih (idxInsert j acc) (List.Nodup.of_cons hnd) ?_]
      · rw [length_idxInsert j acc (hdisj j (List.mem_cons_self j G))]
        simp only [List.length_cons]
        omega
      · intro x hx hmem
        rcases mem_idxInsert hmem with he | ha
        · exact (List.nodup_cons.1 hnd).1 (he ▸ hx)
        · exact hdisj x (List.mem_cons_of_mem j hx) ha
  rw [this F [] hnd (by simp)]
  simp

theorem drop_pref (X R : Str) (n : Nat) (h : X.length = n) : (X ++ R).drop n = R := by
  rw [← h, List.drop_left]

theorem take_pref (X R : Str) (n : Nat) (h : X.length = n) : (X ++ R).take n = X := by
  rw [← h, List.take_left]

theorem take_pref_add (X R : Str) (n k : Nat) (h : X.length = n) :
    (X ++ R).take (n + k) = X ++ R.take k := by
  rw [← h, List.take_append]

theorem headerParcel_split1 (rid sender dest text : Str) :
    headerParcel rid sender dest text =
      (rid ++ [48]) ++ colonByte ::
        (sender ++ colonByte :: (dest ++ colonByte :: calculateChecksum text)) := by
  simp [headerParcel, List.append_assoc]

theorem headerParcel_split2 (rid sender dest text : Str) :
    headerParcel rid sender dest text =
      ((rid ++ [48]) ++ [colonByte]) ++
        (sender ++ colonByte :: (dest ++ colonByte :: calculateChecksum text)) := by
  simp [headerParcel, List.append_assoc]

theorem headerParcel_split3 (rid sender dest text : Str) :
    headerParcel rid sender dest text =
      ((rid ++ [48]) ++ [colonByte] ++ sender ++ [colonByte]) ++
        (dest ++ colonByte :: calculateChecksum text) := by
  simp [headerParcel, List.append_assoc]

theorem headerParcel_split4 (rid sender dest text : Str) :
    headerParcel rid sender dest text =
      ((rid ++ [48]) ++ [colonByte] ++ sender ++ [colonByte] ++ dest ++ [colonByte]) ++
        calculateChecksum text := by
  simp [headerParcel, List.append_assoc]

theorem idxOf?_headerParcel (rid sender dest text : Str)
    (hrid : rid.length = 2) (hcol : colonByte ∉ rid) :
    idxOf? (headerParcel rid sender dest text) colonByte = some 3 := by
  rw [headerParcel_split1]
  have hnc : colonByte ∉ rid ++ [48] := by
    intro h
    rcases List.mem_append.1 h with h | h
    · exact hcol h
    · simp only [List.mem_singleton, colonByte] at h
      omega
  rw [idxOf?_append _ _ _ hnc]
  simp [hrid]

/-- Feeding the index-0 header parcel into a fresh assembler records the
sender, destination, checksum and id and stores the parcel, attempting no
reassembly. -/
theorem header_step (rid sender dest text : Str) (ts : Nat)
    (hrid : rid.length = 2) (hcol : colonByte ∉ rid)
    (hscol : colonByte ∉ sender) (hdcol : colonByte ∉ dest) :
    addMessageParcel (freshMessage ts) (headerParcel rid sender dest text) =
      canonicalState rid sender dest text [] ts := by
  have hci := idxOf?_headerParcel rid sender dest text hrid hcol
  have hsc : isSingleCommand (headerParcel rid sender dest text) = false := by
    simp [isSingleCommand, hci]
  have hP1len : (rid ++ [48] : Str).length = 3 := by simp [hrid]
  have hpid : (headerParcel rid sender dest text).take 3 = rid ++ [48] := by
    rw [headerParcel_split1, take_pref _ _ 3 hP1len]
  have hpdrop : ((rid ++ [48] : Str)).drop 2 = [48] := by
    rw [← hrid, List.drop_left]
  have hptake : ((rid ++ [48] : Str)).take 2 = rid := by
    rw [← hrid, List.take_left]
  have hp2 : idxOfFrom? (headerParcel rid sender dest text) colonByte 4 =
      some (sender.length + 4) := by
    unfold idxOfFrom?
    rw [headerParcel_split2, drop_pref _ _ 4 (by simp [hrid]),
      idxOf?_append _ _ _ hscol]
    rfl
  have hp3 : idxOfFrom? (headerParcel rid sender dest text) colonByte
      (sender.length + 4 + 1) = some (dest.length + (sender.length + 4 + 1)) := by
    unfold idxOfFrom?
    rw [headerParcel_split3, drop_pref _ _ (sender.length + 4 + 1) (by simp [hrid]; omega),
      idxOf?_append _ _ _ hdcol]
    rfl
  have hsender : substr (headerParcel rid sender dest text) (3 + 1) (sender.length + 4) =
      sender := by
    unfold substr
    rw [headerParcel_split2,
      show sender.length + 4 = 4 + sender.length from by omega,
      take_pref_add _ _ 4 sender.length (by simp [hrid]),
      take_pref sender _ sender.length rfl,
      drop_pref _ _ 4 (by simp [hrid])]
  have hdest : substr (headerParcel rid sender dest text) (sender.length + 4 + 1)
      (dest.length + (sender.length + 4 + 1)) = dest := by
    unfold substr
    rw [headerParcel_split3,
      show dest.length + (sender.length + 4 + 1) = (sender.length + 4 + 1) + dest.length
        from by omega,
      take_pref_add _ _ (sender.length + 4 + 1) dest.length (by simp [hrid]; omega),
      take_pref dest _ dest.length rfl,
      drop_pref _ _ (sender.length + 4 + 1) (by simp [hrid]; omega)]
  have hck : (headerParcel rid sender dest text).drop
      (dest.length + (sender.length + 4 + 1) + 1) = calculateChecksum text := by
    rw [headerParcel_split4,
      drop_pref _ _ (dest.length + (sender.length + 4 + 1) + 1) (by simp [hrid]; omega)]
  unfold addMessageParcel
  rw [show (freshMessage ts).messageCompleted = false from rfl, hci, hsc]
  simp only [Bool.false_eq_true, if_false]
  rw [hpid]
  rw [if_neg (by simp [freshMessage, mapFind?] :
    ¬((mapFind? (rid ++ [48]) (freshMessage ts).messageBox).isSome = true))]
  rw [if_pos (by simp [hrid] : 3 ≤ (rid ++ [48] : Str).length)]
  rw [hpdrop, show atol [48] = (0 : Int) from rfl]
  rw [if_pos (show (freshMessage ts).id = [] from rfl), hptake]
  rw [if_neg (by omega : ¬((0 : Int) < 0)), if_pos rfl]
  rw [show (3 : Nat) + 1 = 4 from rfl] at hsender
  simp only [hp2, hp3]
  rw [if_pos (by omega : 0 < 3)]
  simp only [show (3 : Nat) + 1 = 4 from rfl]
  rw [hsender, hdest, hck]
  rfl

theorem dataParcel_cons (rid text : Str) (j : Nat) (h1 : 1 ≤ j) (h9 : j ≤ 9) :
    dataParcel rid text j = (rid ++ [j + 48]) ++ colonByte :: dataChunk text (j - 1) := by
  unfold dataParcel
  rw [natToDec_digit j h1 h9]
  simp [List.append_assoc]

theorem idxOf?_dataParcel (rid text : Str) (j : Nat) (hrid : rid.length = 2)
    (hcol : colonByte ∉ rid) (h1 : 1 ≤ j) (h9 : j ≤ 9) :
    idxOf? (dataParcel rid text j) colonByte = some 3 := by
  rw [dataParcel_cons rid text j h1 h9]
  have hnc : colonByte ∉ rid ++ [j + 48] := by
    intro h
    rcases List.mem_append.1 h with h | h
    · exact hcol h
    · simp only [List.mem_singleton, colonByte] at h
      omega
  rw [idxOf?_append _ _ _ hnc]
  simp [hrid]

theorem parcelPayload_dataParcel (rid text : Str) (j : Nat) (hrid : rid.length = 2)
    (hcol : colonByte ∉ rid) (h1 : 1 ≤ j) (h9 : j ≤ 9) :
    parcelPayload (dataParcel rid text j) = dataChunk text (j - 1) := by
  unfold parcelPayload
  rw [idxOf?_dataParcel rid text j hrid hcol h1 h9]
  show (dataParcel rid text j).drop (3 + 1) = dataChunk text (j - 1)
  rw [dataParcel_cons rid text j h1 h9,
    show (rid ++ [j + 48]) ++ colonByte :: dataChunk text (j - 1) =
      ((rid ++ [j + 48]) ++ [colonByte]) ++ dataChunk text (j - 1) from by simp,
    drop_pref _ _ (3 + 1) (by simp [hrid])]

theorem mapFind?_eq_none (k : Str) : ∀ (box : SMap),
    (∀ kv ∈ box, (kv : Str × Str).1 ≠ k) → mapFind? k box = none := by
  intro box
  induction box with
  | nil => intro _; rfl
  | cons hd tl ih =>
    intro h
    obtain ⟨k', v'⟩ := hd
    unfold mapFind?
    rw [if_neg (h (k', v') (List.mem_cons_self _ _))]
    exact ih (fun kv hm => h kv (List.mem_cons_of_mem _ hm))

theorem key_ne (rid : Str) (x y : Nat) (h : x ≠ y) : rid ++ [x] ≠ rid ++ [y] := by
  intro he
  exact h (by simpa using List.append_cancel_left he)

theorem find_canonicalBox_none (rid sender dest text : Str) (S : List Nat) (j : Nat)
    (h1 : 1 ≤ j) (hjS : j ∉ S) :
    mapFind? (rid ++ [j + 48]) (canonicalBox rid sender dest text S) = none := by
  apply mapFind?_eq_none
  intro kv hm
  unfold canonicalBox at hm
  rcases List.mem_cons.1 hm with he | hm
  · rw [he]
    exact key_ne rid 48 (j + 48) (by omega)
  · obtain ⟨i, hiS, he⟩ := List.mem_map.1 hm
    rw [← he]
    exact key_ne rid (i + 48) (j + 48)
      (fun hc => hjS (show i = j by omega ▸ hiS))

theorem mapInsert_data (rid text : Str) (j : Nat) (h1 : 1 ≤ j) (h9 : j ≤ 9) :
    ∀ (S : List Nat),
    mapInsert (rid ++ [j + 48]) (dataParcel rid text j)
      (S.map (fun i => (rid ++ [i + 48], dataParcel rid text i))) =
    (idxInsert j S).map (fun i => (rid ++ [i + 48], dataParcel rid text i)) := by
  intro S
  induction S with
  | nil => rfl
  | cons i rest ih =>
    simp only [List.map_cons]
    unfold mapInsert idxInsert
    by_cases hji : j < i
    · rw [if_pos (strLtB_append_last_lt rid (j + 48) (i + 48) (by omega)),
        if_pos hji]
      simp
    · rw [if_neg (by simp [strLtB_append_last_ge rid (j + 48) (i + 48) (by omega)])]
      by_cases hij : i < j
      · rw [if_pos (strLtB_append_last_lt rid (i + 48) (j + 48) (by omega)),
          if_neg hji, if_pos hij, List.map_cons, ih]
      · rw [if_neg (by simp [strLtB_append_last_ge rid (i + 48) (j + 48) (by omega)]),
          if_neg hji, if_neg hij]
        simp

theorem mapInsert_canonical (rid sender dest text : Str) (S : List Nat) (j : Nat)
    (h1 : 1 ≤ j) (h9 : j ≤ 9) :
    mapInsert (rid ++ [j + 48]) (dataParcel rid text j)
      (canonicalBox rid sender dest text S) =
    canonicalBox rid sender dest text (idxInsert j S) := by
  unfold canonicalBox
  unfold mapInsert
  rw [if_neg (by simp [strLtB_append_last_ge rid (j + 48) 48 (by omega)]),
    if_pos (strLtB_append_last_lt rid 48 (j + 48) (by omega))]
  rw [mapInsert_data rid text j h1 h9 S]

theorem reassemble_data_fold (rid text : Str) (hrid : rid.length = 2)
    (hcol : colonByte ∉ rid) :
    ∀ (S : List Nat) (acc : Str), (∀ i ∈ S, 1 ≤ i ∧ i ≤ 9) →
    (S.map (fun i => (rid ++ [i + 48], dataParcel rid text i))).foldl
      (fun acc kv =>
        if 3 ≤ kv.1.length then
          if 1 ≤ atol (kv.1.drop 2) then acc ++ parcelPayload kv.2 else acc
        else acc) acc =
    acc ++ (S.map (fun i => dataChunk text (i - 1))).flatten := by
  intro S
  induction S with
  | nil => intro acc _; simp
  | cons i rest ih =>
    intro acc hS
    obtain ⟨hi1, hi9⟩ := hS i (List.mem_cons_self i rest)
    simp only [List.map_cons, List.foldl_cons]
    have hacc : (if 3 ≤ (rid ++ [i + 48] : Str).length then
          if 1 ≤ atol ((rid ++ [i + 48] : Str).drop 2) then
            acc ++ parcelPayload (dataParcel rid text i) else acc
        else acc) = acc ++ dataChunk text (i - 1) := by
      rw [if_pos (by simp [hrid]),
        show (rid ++ [i + 48] : Str).drop 2 = [i + 48] from by
          rw [← hrid, List.drop_left],
        atol_digit i hi1 hi9,
        if_pos (by exact_mod_cast hi1),
        parcelPayload_dataParcel rid text i hrid hcol hi1 hi9]
    rw [hacc, ih (acc ++ dataChunk text (i - 1))
      (fun x hx => hS x (List.mem_cons_of_mem i hx))]
    simp [List.flatten_cons]

theorem reassemble_canonical (rid sender dest text : Str) (S : List Nat)
    (hrid : rid.length = 2) (hcol : colonByte ∉ rid)
    (hS : ∀ i ∈ S, 1 ≤ i ∧ i ≤ 9) :
    reassembleBox (canonicalBox rid sender dest text S) =
      (S.map (fun i => dataChunk text (i - 1))).flatten := by
  unfold reassembleBox canonicalBox
  rw [List.foldl_cons]
  dsimp only
  have hstep : (if 3 ≤ (rid ++ [48] : Str).length then
      if 1 ≤ atol ((rid ++ [48] : Str).drop 2) then
        [] ++ parcelPayload (headerParcel rid sender dest text) else ([] : Str)
    else []) = [] := by
    rw [if_pos (by simp [hrid]),
      show (rid ++ [48] : Str).drop 2 = [48] from by rw [← hrid, List.drop_left],
      show atol [48] = (0 : Int) from rfl,
      if_neg (by omega : ¬((1 : Int) ≤ 0))]
  rw [hstep, reassemble_data_fold rid text hrid hcol S [] hS]
  simp

theorem chunk_ne_nil (text : Str) (i : Nat) (h : i < numParcels text) :
    dataChunk text i ≠ [] := by
  have hlen : 0 < (dataChunk text i).length := by
    unfold dataChunk
    rw [List.length_take, List.length_drop]
    unfold numParcels TEXT_LENGTH_PER_PARCEL at *
    omega
  exact List.ne_nil_of_length_pos hlen

theorem chunk_subset (text : Str) (i : Nat) : ∀ c ∈ dataChunk text i, c ∈ text := by
  intro c hc
  unfold dataChunk at hc
  exact List.drop_subset _ _ (List.take_subset _ _ hc)

theorem chunk_sum_pos (text : Str) (i : Nat) (hbytes : ∀ c ∈ text, 1 ≤ c)
    (h : i < numParcels text) : 1 ≤ (dataChunk text i).sum := by
  obtain ⟨c, cs, hcc⟩ := List.exists_cons_of_ne_nil (chunk_ne_nil text i h)
  have hcmem : c ∈ dataChunk text i := hcc ▸ List.mem_cons_self c cs
  have := hbytes c (chunk_subset text i c hcmem)
  rw [hcc, List.sum_cons]
  omega

theorem range'_map_pred (text : Str) (n : Nat) :
    (List.range' 1 n).map (fun i => dataChunk text (i - 1)) =
      (List.range n).map (dataChunk text) := by
  rw [← map_add_range 1 n, List.map_map]
  exact List.map_congr_left (fun i _ => by simp)

theorem text_chunks (text : Str) :
    ((List.range' 1 (numParcels text)).map (fun i => dataChunk text (i - 1))).flatten =
      text := by
  rw [range'_map_pred]
  exact chunks_join text

theorem sumBytes_flatten (l : List Str) :
    sumBytes l.flatten = (l.map (fun s => s.sum)).sum := by
  rw [sumBytes_eq_sum, List.sum_flatten]

/-- Reassembling a proper, non-empty subset of the data parcels yields a
different checksum than the full text's (byte sums are injective below
`26⁴` and every chunk has a positive sum). -/
theorem subset_checksum_ne (text : Str) (S : List Nat)
    (htext : text ≠ []) (hbytes : ∀ c ∈ text, 1 ≤ c ∧ c ≤ 255)
    (hn9 : numParcels text ≤ 9)
    (hSp : List.Pairwise (· < ·) S)
    (hS : ∀ i ∈ S, 1 ≤ i ∧ i ≤ numParcels text)
    (hlen : S.length < numParcels text) (hne : S ≠ []) :
    calculateChecksum ((S.map (fun i => dataChunk text (i - 1))).flatten) ≠
      calculateChecksum text := by
  have hnd : S.Nodup := hSp.imp (fun h => Nat.ne_of_lt h)
  have hsub : S ⊆ List.range' 1 (numParcels text) := by
    intro x hx
    have := hS x hx
    rw [List.mem_range'_1]
    omega
  obtain ⟨l, hlperm, hlsub⟩ := hnd.subperm hsub
  have hlen180 : text.length ≤ 180 := by
    unfold numParcels TEXT_LENGTH_PER_PARCEL at hn9
    omega
  have hsumtext : sumBytes text ≤ 45900 := by
    rw [sumBytes_eq_sum]
    have := sum_le_mul_length text (fun c hc => (hbytes c hc).2)
    omega
  have hpos : ∀ x ∈ (List.range' 1 (numParcels text)).map
      (fun i => (dataChunk text (i - 1)).sum), 1 ≤ x := by
    intro x hx
    obtain ⟨i, hi, hix⟩ := List.mem_map.1 hx
    rw [List.mem_range'_1] at hi
    rw [← hix]
    exact chunk_sum_pos text (i - 1) (fun c hc => (hbytes c hc).1) (by omega)
  have hsum_lt : sumBytes ((S.map (fun i => dataChunk text (i - 1))).flatten) <
      sumBytes text := by
    rw [sumBytes_flatten, List.map_map]
    have htext_eq : sumBytes text =
        ((List.range' 1 (numParcels text)).map
          ((fun s => List.sum s) ∘ fun i => dataChunk text (i - 1))).sum := by
      conv_lhs => rw [← text_chunks text]
      rw [sumBytes_flatten, List.map_map]
    rw [htext_eq]
    have hperm_sum : (S.map ((fun s => List.sum s) ∘ fun i => dataChunk text (i - 1))).sum
        = (l.map ((fun s => List.sum s) ∘ fun i => dataChunk text (i - 1))).sum :=
      (hlperm.map _).sum_eq.symm
    rw [hperm_sum]
    have hsubmap := hlsub.map ((fun s => List.sum s) ∘ fun i => dataChunk text (i - 1))
    have hlt := sublist_sum_lt hsubmap
      (by
        intro x hx
        apply hpos
        simpa [Function.comp] using hx)
      (by
        rw [List.length_map, List.length_map, hlperm.length_eq, List.length_range']
        exact hlen)
    simpa [Function.comp] using hlt
  have hjmem : ∃ j, j ∈ S := by
    cases S with
    | nil => exact absurd rfl hne
    | cons a t => exact ⟨a, List.mem_cons_self a t⟩
  obtain ⟨j, hjS⟩ := hjmem
  have hflat_pos : 1 ≤ sumBytes ((S.map (fun i => dataChunk text (i - 1))).flatten) := by
    rw [sumBytes_flatten, List.map_map]
    have hj' := hS j hjS
    have hmemmap : (dataChunk text (j - 1)).sum ∈
        S.map ((fun s => List.sum s) ∘ fun i => dataChunk text (i - 1)) :=
      List.mem_map.2 ⟨j, hjS, rfl⟩
    have hle := List.single_le_sum (fun x (_ : x ∈ S.map ((fun s => List.sum s) ∘
        fun i => dataChunk text (i - 1))) => Nat.zero_le x) _ hmemmap
    have hcp := chunk_sum_pos text (j - 1) (fun c hc => (hbytes c hc).1)
      (by have := hj'.1; have := hj'.2; omega)
    exact le_trans hcp hle
  apply calcChecksum_injective
  · intro hfe
    rw [hfe] at hflat_pos
    simp [sumBytes] at hflat_pos
  · exact htext
  · omega
  · omega
  · omega

/-- A sorted, strictly-bounded index set of full size is exactly `[1..n]`. -/
theorem sorted_full_eq_range (S : List Nat) (n : Nat)
    (hSp : List.Pairwise (· < ·) S)
    (hS : ∀ i ∈ S, 1 ≤ i ∧ i ≤ n)
    (hlen : S.length = n) : S = List.range' 1 n := by
  have hnd : S.Nodup := hSp.imp (fun h => Nat.ne_of_lt h)
  have hsub : S ⊆ List.range' 1 n := by
    intro x hx
    have := hS x hx
    rw [List.mem_range'_1]
    omega
  have hperm : S.Perm (List.range' 1 n) :=
    (hnd.subperm hsub).perm_of_length_le (by rw [hlen, List.length_range'])
  exact List.eq_of_perm_of_sorted hperm
    (List.Pairwise.imp (fun h => Nat.le_of_lt h) hSp)
    (List.pairwise_le_range' 1 n)

/-- One data parcel fed to a canonical accumulating slot: either it fills in
the last missing index and the message completes with the original text, or
the slot keeps accumulating with the index added in key order. -/
theorem data_step (rid sender dest text : Str) (ts : Nat) (S : List Nat) (j : Nat)
    (hrid : rid.length = 2) (hcol : colonByte ∉ rid)
    (htext : text ≠ []) (hbytes : ∀ c ∈ text, 1 ≤ c ∧ c ≤ 255)
    (hn9 : numParcels text ≤ 9)
    (hS : ∀ i ∈ S, 1 ≤ i ∧ i ≤ numParcels text)
    (hSp : List.Pairwise (· < ·) S)
    (hj1 : 1 ≤ j) (hjn : j ≤ numParcels text) (hjS : j ∉ S) :
    addMessageParcel (canonicalState rid sender dest text S ts) (dataParcel rid text j) =
      if (idxInsert j S).length = numParcels text then
        { messageCompleted := true, id := rid, idFromSender := sender,
          idDestination := dest, message := text,
          checksum := calculateChecksum text,
          messageBox := canonicalBox rid sender dest text (idxInsert j S),
          timeStamp := ts }
      else canonicalState rid sender dest text (idxInsert j S) ts := by
  have hj9 : j ≤ 9 := le_trans hjn hn9
  have hci := idxOf?_dataParcel rid text j hrid hcol hj1 hj9
  have hsc : isSingleCommand (dataParcel rid text j) = false := by
    simp [isSingleCommand, hci]
  have hpid : (dataParcel rid text j).take 3 = rid ++ [j + 48] := by
    rw [dataParcel_cons rid text j hj1 hj9, take_pref _ _ 3 (by simp [hrid])]
  have hS' : ∀ i ∈ idxInsert j S, 1 ≤ i ∧ i ≤ numParcels text := by
    intro i hi
    rcases mem_idxInsert hi with he | hm
    · exact he ▸ ⟨hj1, hjn⟩
    · exact hS i hm
  have hS'9 : ∀ i ∈ idxInsert j S, 1 ≤ i ∧ i ≤ 9 :=
    fun i hi => ⟨(hS' i hi).1, le_trans (hS' i hi).2 hn9⟩
  have hSp' : List.Pairwise (· < ·) (idxInsert j S) := pairwise_idxInsert j S hSp
  have hlenS' : (idxInsert j S).length = S.length + 1 := length_idxInsert j S hjS
  have hreass := reassemble_canonical rid sender dest text (idxInsert j S) hrid hcol hS'9
  unfold addMessageParcel
  rw [show (canonicalState rid sender dest text S ts).messageCompleted = false from rfl,
    hci, hsc]
  simp only [Bool.false_eq_true, if_false]
  rw [hpid]
  rw [if_neg (by
    rw [show (canonicalState rid sender dest text S ts).messageBox =
        canonicalBox rid sender dest text S from rfl,
      find_canonicalBox_none rid sender dest text S j hj1 hjS]
    simp :
    ¬((mapFind? (rid ++ [j + 48])
        (canonicalState rid sender dest text S ts).messageBox).isSome = true))]
  rw [show (canonicalState rid sender dest text S ts).messageBox =
      canonicalBox rid sender dest text S from rfl,
    mapInsert_canonical rid sender dest text S j hj1 hj9]
  rw [if_pos (by simp [hrid] : 3 ≤ (rid ++ [j + 48] : Str).length)]
  rw [show (rid ++ [j + 48] : Str).drop 2 = [j + 48] from by rw [← hrid, List.drop_left],
    atol_digit j hj1 hj9]
  rw [if_neg (show ¬(canonicalState rid sender dest text S ts).id = [] from by
    show ¬rid = []
    intro h
    rw [h] at hrid
    cases hrid)]
  rw [if_neg (by omega : ¬((j : Int) < 0)), if_neg (by omega : ¬((j : Int) = 0))]
  rw [if_neg (by
    rw [show (canonicalBox rid sender dest text (idxInsert j S)).length =
        (idxInsert j S).length + 1 from by simp [canonicalBox]]
    omega :
    ¬((canonicalBox rid sender dest text (idxInsert j S)).length < 2))]
  rw [if_neg (show ¬(canonicalState rid sender dest text S ts).checksum = [] from
    calcChecksum_ne_nil text)]
  rw [hreass]
  by_cases hfull : (idxInsert j S).length = numParcels text
  · rw [if_pos hfull]
    have heq : idxInsert j S = List.range' 1 (numParcels text) :=
      sorted_full_eq_range (idxInsert j S) (numParcels text) hSp' hS' hfull
    have hres : ((idxInsert j S).map (fun i => dataChunk text (i - 1))).flatten = text := by
      rw [heq]
      exact text_chunks text
    rw [hres]
    rw [if_pos (show calculateChecksum text =
        (canonicalState rid sender dest text S ts).checksum from rfl)]
    rfl
  · rw [if_neg hfull]
    have hlt : (idxInsert j S).length < numParcels text := by
      have hnd' : (idxInsert j S).Nodup := hSp'.imp (fun h => Nat.ne_of_lt h)
      have hsub : idxInsert j S ⊆ List.range' 1 (numParcels text) := by
        intro x hx
        have := hS' x hx
        rw [List.mem_range'_1]
        omega
      have := (hnd'.subperm hsub).length_le
      rw [List.length_range'] at this
      omega
    have hne' : idxInsert j S ≠ [] := by
      intro h
      have := mem_idxInsert_self j S
      rw [h] at this
      cases this
    rw [if_neg (show ¬(calculateChecksum
        (((idxInsert j S).map (fun i => dataChunk text (i - 1))).flatten) =
        (canonicalState rid sender dest text S ts).checksum) from
      subset_checksum_ne text (idxInsert j S) htext hbytes hn9 hSp' hS' hlt hne')]
    rfl

theorem strLtB_asymm : ∀ (a b : Str), strLtB a b = true → strLtB b a = false := by
  intro a
  induction a with
  | nil =>
    intro b h
    cases b with
    | nil => cases h
    | cons y ys => rfl
  | cons x xs ih =>
    intro b h
    cases b with
    | nil => cases h
    | cons y ys =>
      unfold strLtB at h ⊢
      by_cases hxy : x < y
      · rw [if_neg (by omega : ¬ y < x), if_pos hxy]
      · rw [if_neg hxy] at h
        by_cases hyx : y < x
        · rw [if_pos hyx] at h; cases h
        · rw [if_neg hyx] at h
          rw [if_neg hyx, if_neg hxy]
          exact ih ys h

theorem mapInsert_atEnd (k v : Str) : ∀ (box : SMap),
    (∀ kv ∈ box, strLtB (kv : Str × Str).1 k = true) →
    mapInsert k v box = box ++ [(k, v)] := by
  intro box
  induction box with
  | nil => intro _; rfl
  | cons hd tl ih =>
    intro h
    obtain ⟨k', v'⟩ := hd
    have hlt : strLtB k' k = true := h (k', v') (List.mem_cons_self _ _)
    unfold mapInsert
    rw [if_neg (by simp [strLtB_asymm k' k hlt]), if_pos hlt,
      ih (fun kv hm => h kv (List.mem_cons_of_mem _ hm))]
    rfl

/-- The multi-parcel sender constructor stores exactly the header parcel and
the data parcels `1 .. numParcels` in key order. -/
theorem mkMulti_parcels (rid sender dest text : Str) (ts : Nat)
    (hrid : rid.length = 2) (hn9 : numParcels text ≤ 9) :
    (mkMultiMessage rid sender dest text ts).messageBox =
      canonicalBox rid sender dest text (List.range' 1 (numParcels text)) := by
  have hfold : ∀ k, k ≤ numParcels text →
      (List.range k).foldl (fun b i =>
        mapInsert (rid ++ natToDec (i + 1))
          ((rid ++ natToDec (i + 1)) ++ [colonByte] ++
            (text.drop (i * TEXT_LENGTH_PER_PARCEL)).take TEXT_LENGTH_PER_PARCEL) b)
        [(rid ++ [48], headerParcel rid sender dest text)] =
      canonicalBox rid sender dest text (List.range' 1 k) := by
    intro k
    induction k with
    | zero => intro _; rfl
    | succ m ihm =>
      intro hm
      rw [List.range_succ, List.foldl_append, List.foldl_cons, List.foldl_nil,
        ihm (by omega)]
      have hmd : natToDec (m + 1) = [m + 1 + 48] :=
        natToDec_digit (m + 1) (by omega) (by omega)
      have hdp : (rid ++ natToDec (m + 1)) ++ [colonByte] ++
          (text.drop (m * TEXT_LENGTH_PER_PARCEL)).take TEXT_LENGTH_PER_PARCEL =
          dataParcel rid text (m + 1) := by
        unfold dataParcel dataChunk
        simp
      rw [hdp, hmd]
      rw [mapInsert_atEnd (rid ++ [m + 1 + 48]) (dataParcel rid text (m + 1))
        (canonicalBox rid sender dest text (List.range' 1 m)) ?_]
      · unfold canonicalBox
        rw [List.range'_concat]
        simp only [List.map_append, List.map_cons, List.map_nil]
        rw [show 1 + 1 * m = m + 1 from by omega]
        rfl
      · intro kv hm'
        unfold canonicalBox at hm'
        rcases List.mem_cons.1 hm' with he | hm'
        · rw [he]
          exact strLtB_append_last_lt rid 48 (m + 1 + 48) (by omega)
        · obtain ⟨i, hi, he⟩ := List.mem_map.1 hm'
          rw [List.mem_range'_1] at hi
          rw [← he]
          exact strLtB_append_last_lt rid (i + 48) (m + 1 + 48) (by omega)
  have := hfold (numParcels text) (le_refl _)
  unfold mkMultiMessage splitDataIntoParcels
  exact this

/-- Feeding any duplicate-free, incomplete set of data-parcel indices after
the header leaves the slot accumulating in the canonical state. -/
theorem feed_partial (rid sender dest text : Str) (ts : Nat)
    (hrid : rid.length = 2) (hcol : colonByte ∉ rid)
    (htext : text ≠ []) (hbytes : ∀ c ∈ text, 1 ≤ c ∧ c ≤ 255)
    (hn9 : numParcels text ≤ 9) :
    ∀ (F : List Nat), F.Nodup → (∀ i ∈ F, 1 ≤ i ∧ i ≤ numParcels text) →
    F.length < numParcels text →
    feedParcels (canonicalState rid sender dest text [] ts)
      (F.map (dataParcel rid text)) =
      canonicalState rid sender dest text (sortOf F) ts := by
  intro F
  induction F using List.reverseRecOn with
  | nil => intro _ _ _; rfl
  | append_singleton F j ih =>
    intro hnd hb hlen
    have hndF : F.Nodup := hnd.sublist (List.sublist_append_left F [j])
    have hjF : j ∉ F := by
      have := List.disjoint_of_nodup_append hnd
      intro hm
      exact this hm (List.mem_singleton.2 rfl)
    have hbF : ∀ i ∈ F, 1 ≤ i ∧ i ≤ numParcels text :=
      fun i hi => hb i (List.mem_append_left _ hi)
    have hlenF : F.length < numParcels text := by
      rw [List.length_append] at hlen
      simp at hlen
      omega
    have hbj := hb j (List.mem_append_right _ (List.mem_singleton.2 rfl))
    rw [List.map_append, List.map_singleton]
    unfold feedParcels
    rw [List.foldl_append, List.foldl_cons, List.foldl_nil]
    rw [show List.foldl addMessageParcel (canonicalState rid sender dest text [] ts)
        (F.map (dataParcel rid text)) =
        canonicalState rid sender dest text (sortOf F) ts from ih hndF hbF hlenF]
    rw [data_step rid sender dest text ts (sortOf F) j hrid hcol htext hbytes hn9
      (fun i hi => hbF i ((sortOf_mem i F).1 hi)) (sortOf_pairwise F)
      hbj.1 hbj.2 (fun hm => hjF ((sortOf_mem j F).1 hm))]
    have hne : (idxInsert j (sortOf F)).length ≠ numParcels text := by
      rw [← sortOf_append F j, sortOf_length (F ++ [j]) hnd]
      omega
    rw [if_neg hne, ← sortOf_append F j]

/-- Feeding all data-parcel indices (in any order) after the header completes
the message with the original text. -/
theorem feed_full (rid sender dest text : Str) (ts : Nat)
    (hrid : rid.length = 2) (hcol : colonByte ∉ rid)
    (htext : text ≠ []) (hbytes : ∀ c ∈ text, 1 ≤ c ∧ c ≤ 255)
    (hn9 : numParcels text ≤ 9) :
    ∀ (F : List Nat), F.Nodup → (∀ i ∈ F, 1 ≤ i ∧ i ≤ numParcels text) →
    F.length = numParcels text →
    feedParcels (canonicalState rid sender dest text [] ts)
      (F.map (dataParcel rid text)) =
      { messageCompleted := true, id := rid, idFromSender := sender,
        idDestination := dest, message := text,
        checksum := calculateChecksum text,
        messageBox := canonicalBox rid sender dest text
          (List.range' 1 (numParcels text)),
        timeStamp := ts } := by
  intro F
  induction F using List.reverseRecOn with
  | nil =>
    intro _ _ hlen
    have : text.length = 0 := by
      rw [← (numParcels_zero text), ← hlen]
      rfl
    exact absurd (List.length_eq_zero.1 this) htext
  | append_singleton F j ih =>
    intro hnd hb hlen
    have hndF : F.Nodup := hnd.sublist (List.sublist_append_left F [j])
    have hjF : j ∉ F := by
      have := List.disjoint_of_nodup_append hnd
      intro hm
      exact this hm (List.mem_singleton.2 rfl)
    have hbF : ∀ i ∈ F, 1 ≤ i ∧ i ≤ numParcels text :=
      fun i hi => hb i (List.mem_append_left _ hi)
    have hlenF : F.length < numParcels text := by
      rw [List.length_append] at hlen
      simp at hlen
      omega
    have hbj := hb j (List.mem_append_right _ (List.mem_singleton.2 rfl))
    rw [List.map_append, List.map_singleton]
    unfold feedParcels
    rw [List.foldl_append, List.foldl_cons, List.foldl_nil]
    rw [show List.foldl addMessageParcel (canonicalState rid sender dest text [] ts)
        (F.map (dataParcel rid text)) =
        canonicalState rid sender dest text (sortOf F) ts from
      feed_partial rid sender dest text ts hrid hcol htext hbytes hn9 F hndF hbF hlenF]
    rw [data_step rid sender dest text ts (sortOf F) j hrid hcol htext hbytes hn9
      (fun i hi => hbF i ((sortOf_mem i F).1 hi)) (sortOf_pairwise F)
      hbj.1 hbj.2 (fun hm => hjF ((sortOf_mem j F).1 hm))]
    have hfull : (idxInsert j (sortOf F)).length = numParcels text := by
      rw [← sortOf_append F j, sortOf_length (F ++ [j]) hnd, ← hlen]
    rw [if_pos hfull]
    have heq : idxInsert j (sortOf F) = List.range' 1 (numParcels text) := by
      apply sorted_full_eq_range _ _ (pairwise_idxInsert j (sortOf F) (sortOf_pairwise F))
        ?_ hfull
      intro i hi
      rcases mem_idxInsert hi with he | hm
      · exact he ▸ hbj
      · exact hbF i ((sortOf_mem i F).1 hm)
    rw [heq]

/-- Witness for `dedup_idempotence` with payload `">HELLO"`, window 2000 ms,
ingests at 10 ms, 20 ms and 3000 ms. -/
theorem dedup_idempotence_witness :
    countSingle (onResult (62 :: [72, 69, 76, 76, 79]) 10 (initEngine 2000)).1 = 1 ∧
    countSingle (onResult (62 :: [72, 69, 76, 76, 79]) 20
      (onResult (62 :: [72, 69, 76, 76, 79]) 10 (initEngine 2000)).2).1 = 0 ∧
    (onResult (62 :: [72, 69, 76, 76, 79]) 20
      (onResult (62 :: [72, 69, 76, 76, 79]) 10 (initEngine 2000)).2).2.dedup =
      (onResult (62 :: [72, 69, 76, 76, 79]) 10 (initEngine 2000)).2.dedup ∧
    countSingle (onResult (62 :: [72, 69, 76, 76, 79]) 3000
      (onResult (62 :: [72, 69, 76, 76, 79]) 20
        (onResult (62 :: [72, 69, 76, 76, 79]) 10 (initEngine 2000)).2).2).1 = 1 :=
  dedup_idempotence 2000 [72, 69, 76, 76, 79] 10 20 3000
    (by decide) (by decide) (by decide) (by decide) (by decide) (by decide)

set_option maxRecDepth 40000 in
/-- C1 counterexample: a 181-byte text splits into 10 data parcels; their keys
`AA1 .. AA10` sort lexicographically as `AA1, AA10, AA2, .., AA9`, so feeding
the header and then all ten data parcels (even in ascending numeric order)
completes the message — the permuted byte sum still matches the checksum —
with a reassembled text different from the original. -/
theorem roundtrip_order_counterexample :
    (feedParcels
      (addMessageParcel (freshMessage 0)
        (headerParcel [65, 65] [70] [84] (List.replicate 180 65 ++ [66])))
      ((List.range' 1 10).map
        (dataParcel [65, 65] (List.replicate 180 65 ++ [66])))).messageCompleted
      = true ∧
    (feedParcels
      (addMessageParcel (freshMessage 0)
        (headerParcel [65, 65] [70] [84] (List.replicate 180 65 ++ [66])))
      ((List.range' 1 10).map
        (dataParcel [65, 65] (List.replicate 180 65 ++ [66])))).message
      ≠ List.replicate 180 65 ++ [66] := by decide

/-- C1 (amended): for a text of at most 9 chunks (so the key sort order agrees
with the numeric parcel order), splitting produces the header parcel followed
by the data parcels `1 .. ⌈L/20⌉`; feeding the header and then the data parcels
in any order into a fresh assembler slot completes exactly once — no proper
prefix of the data-parcel feed completes — and the completed message carries
the original text and its checksum. -/
theorem roundtrip_amended (rid sender dest text : Str) (ts : Nat)
    (hrid : rid.length = 2) (hcol : colonByte ∉ rid)
    (hscol : colonByte ∉ sender) (hdcol : colonByte ∉ dest)
    (htext : text ≠ []) (hbytes : ∀ c ∈ text, 1 ≤ c ∧ c ≤ 255)
    (hn9 : numParcels text ≤ 9)
    (F : List Nat) (hF : F.Perm (List.range' 1 (numParcels text))) :
    getMessageParcels (mkMultiMessage rid sender dest text ts) =
      headerParcel rid sender dest text ::
        (List.range' 1 (numParcels text)).map (dataParcel rid text) ∧
    (∀ k, k < F.length →
      (feedParcels (addMessageParcel (freshMessage ts)
          (headerParcel rid sender dest text))
        ((F.take k).map (dataParcel rid text))).messageCompleted = false) ∧
    feedParcels (addMessageParcel (freshMessage ts)
        (headerParcel rid sender dest text))
      (F.map (dataParcel rid text)) =
      { messageCompleted := true, id := rid, idFromSender := sender,
        idDestination := dest, message := text,
        checksum := calculateChecksum text,
        messageBox := canonicalBox rid sender dest text
          (List.range' 1 (numParcels text)),
        timeStamp := ts } := by
  have hnd : F.Nodup := hF.nodup_iff.2
    (List.nodup_range' 1 (numParcels text) 1 Nat.one_pos)
  have hb : ∀ i ∈ F, 1 ≤ i ∧ i ≤ numParcels text := by
    intro i hi
    have := (hF.mem_iff.1 hi)
    rw [List.mem_range'_1] at this
    omega
  have hlenF : F.length = numParcels text := by
    rw [hF.length_eq, List.length_range']
  refine ⟨?_, ?_, ?_⟩
  · rw [getMessageParcels, mkMulti_parcels rid sender dest text ts hrid hn9]
    unfold canonicalBox
    simp [Function.comp]
  · intro k hk
    rw [header_step rid sender dest text ts hrid hcol hscol hdcol,
      feed_partial rid sender dest text ts hrid hcol htext hbytes hn9
        (F.take k) (hnd.sublist (List.take_sublist k F))
        (fun i hi => hb i (List.take_subset k F hi))
        (by rw [List.length_take]; omega)]
    rfl
  · rw [header_step rid sender dest text ts hrid hcol hscol hdcol,
      feed_full rid sender dest text ts hrid hcol htext hbytes hn9
        F hnd hb hlenF]

/-- Witness for `roundtrip_amended`: id `"AA"`, sender `"F"`, destination
`"T"`, text `"HI"` (one data parcel), feed order `[1]`. -/
theorem roundtrip_amended_witness :
    (feedParcels (addMessageParcel (freshMessage 0)
        (headerParcel [65, 65] [70] [84] [72, 73]))
      ([1].map (dataParcel [65, 65] [72, 73]))).messageCompleted = true ∧
    (feedParcels (addMessageParcel (freshMessage 0)
        (headerParcel [65, 65] [70] [84] [72, 73]))
      ([1].map (dataParcel [65, 65] [72, 73]))).message = [72, 73] := by
  have h := roundtrip_amended [65, 65] [70] [84] [72, 73] 0 (by decide)
    (by decide) (by decide) (by decide) (by decide) (by decide) (by decide)
    [1] (by decide)
  exact ⟨by rw [h.2.2], by rw [h.2.2]⟩

/-- C6: feeding the header plus any strict subset of the data parcels (in any
order) leaves the slot uncompleted; once the slot's age `now - lastTouch`
reaches the TTL with no further parcels, `inflight_sweep` resets it to a fresh
placement-constructed message with no residual parcels in its box. -/
theorem partial_then_ttl_reset (rid sender dest text : Str) (ts now : Nat)
    (hrid : rid.length = 2) (hcol : colonByte ∉ rid)
    (hscol : colonByte ∉ sender) (hdcol : colonByte ∉ dest)
    (htext : text ≠ []) (hbytes : ∀ c ∈ text, 1 ≤ c ∧ c ≤ 255)
    (hn9 : numParcels text ≤ 9)
    (F : List Nat) (hnd : F.Nodup)
    (hb : ∀ i ∈ F, 1 ≤ i ∧ i ≤ numParcels text)
    (hlt : F.length < numParcels text)
    (slots : Nat → Inflight) (i : Nat)
    (hslot : slots i =
      ⟨feedParcels (addMessageParcel (freshMessage ts)
          (headerParcel rid sender dest text))
        (F.map (dataParcel rid text)), ts⟩)
    (hts : ts ≠ 0) (httl : INFLIGHT_TTL_MS ≤ now - ts) :
    (feedParcels (addMessageParcel (freshMessage ts)
        (headerParcel rid sender dest text))
      (F.map (dataParcel rid text))).messageCompleted = false ∧
    inflight_sweep now slots i = ⟨freshMessage now, 0⟩ ∧
    (freshMessage now).messageBox = [] := by
  have hpart : (feedParcels (addMessageParcel (freshMessage ts)
      (headerParcel rid sender dest text))
      (F.map (dataParcel rid text))).messageCompleted = false := by
    rw [header_step rid sender dest text ts hrid hcol hscol hdcol,
      feed_partial rid sender dest text ts hrid hcol htext hbytes hn9
        F hnd hb hlt]
    rfl
  refine ⟨hpart, ?_, rfl⟩
  show (let slot := slots i
    if slot.lastTouchMs = 0 then slot
    else if slot.bm.messageCompleted = false ∧
        INFLIGHT_TTL_MS ≤ now - slot.lastTouchMs then
      inflight_reset now
    else slot) = ⟨freshMessage now, 0⟩
  rw [hslot]
  show (if ts = 0 then _ else
    if (feedParcels (addMessageParcel (freshMessage ts)
          (headerParcel rid sender dest text))
        (F.map (dataParcel rid text))).messageCompleted = false ∧
        INFLIGHT_TTL_MS ≤ now - ts then
      inflight_reset now
    else _) = ⟨freshMessage now, 0⟩
  rw [if_neg hts, if_pos ⟨hpart, httl⟩]
  rfl

/-- Witness for `partial_then_ttl_reset`: id `"AA"`, a 21-byte text (two data
parcels), only parcel 1 fed at 5 ms, swept at 600005 ms. -/
theorem partial_then_ttl_reset_witness :
    (feedParcels (addMessageParcel (freshMessage 5)
        (headerParcel [65, 65] [70] [84] (List.replicate 21 65)))
      ([1].map (dataParcel [65, 65] (List.replicate 21 65)))).messageCompleted
      = false ∧
    inflight_sweep 600005
      (fun _ => ⟨feedParcels (addMessageParcel (freshMessage 5)
          (headerParcel [65, 65] [70] [84] (List.replicate 21 65)))
        ([1].map (dataParcel [65, 65] (List.replicate 21 65))), 5⟩) 0 =
      ⟨freshMessage 600005, 0⟩ ∧
    (freshMessage 600005).messageBox = [] :=
  partial_then_ttl_reset [65, 65] [70] [84] (List.replicate 21 65) 5 600005
    (by decide) (by decide) (by decide) (by decide) (by decide) (by decide)
    (by decide) [1] (by decide) (by decide) (by decide)
    (fun _ => ⟨feedParcels (addMessageParcel (freshMessage 5)
        (headerParcel [65, 65] [70] [84] (List.replicate 21 65)))
      ([1].map (dataParcel [65, 65] (List.replicate 21 65))), 5⟩) 0
    rfl (by decide) (by decide)

end GeoBle
